import Mathlib

/-! # env-roulette: a shallow embedding of `src/env-roulette.js`

The program is one function, `playEnvRoulette`: it looks for the first existing
file among four fixed names, reads it, walks over its lines collecting variables
and issues, and prints a report with a "confidence" percentage.

Strings.  The content comes from `fs.readFileSync(file, 'utf8')`, whose decoder
yields a well-formed Unicode string, so a string is modelled as a list of
Unicode scalar values (`List Char`).  The only place where the UTF-16
representation of JavaScript strings is observable in this program is
`value.length`, modelled by `jsLength` (an astral character counts twice).
-/

namespace EnvRoulette

/-- A JavaScript string, as the list of its code points. -/
abbrev Str := List Char

/-! ## String primitives used by the source -/

/-- ECMAScript `LineTerminator`: LF, CR, LS, PS.  These are the characters that
the regular-expression atom `.` (no `s` flag) refuses. -/
def isLineTerminator (c : Char) : Bool :=
  c.toNat == 0x0A || c.toNat == 0x0D || c.toNat == 0x2028 || c.toNat == 0x2029

/-- ECMAScript `WhiteSpace`: TAB, VT, FF, ZWNBSP and the Unicode space
separators (category Zs). -/
def isWhiteSpace (c : Char) : Bool :=
  c.toNat == 0x09 || c.toNat == 0x0B || c.toNat == 0x0C || c.toNat == 0x20 ||
  c.toNat == 0xA0 || c.toNat == 0x1680 || (0x2000 ≤ c.toNat && c.toNat ≤ 0x200A) ||
  c.toNat == 0x202F || c.toNat == 0x205F || c.toNat == 0x3000 || c.toNat == 0xFEFF

/-- The characters removed by `String.prototype.trim`: white space and line
terminators. -/
def isTrimChar (c : Char) : Bool :=
  isWhiteSpace c || isLineTerminator c

/-- `s.trimStart()`. -/
def trimStart (s : Str) : Str :=
  s.dropWhile isTrimChar

/-- `s.trimEnd()`. -/
def trimEnd (s : Str) : Str :=
  s.rdropWhile isTrimChar

/-- `s.trim()`. -/
def trim (s : Str) : Str :=
  trimEnd (trimStart s)

/-- `s.startsWith(p)`. -/
def startsWith : Str → Str → Bool
  | _, [] => true
  | [], _ :: _ => false
  | c :: cs, p :: ps => c == p && startsWith cs ps

/-- `s.includes(p)`: `p` occurs in `s` at some position. -/
def includes : Str → Str → Bool
  | [], p => startsWith [] p
  | c :: cs, p => startsWith (c :: cs) p || includes cs p

/-- `s.length`: the number of UTF-16 code units of `s`. -/
def jsLength : Str → Nat
  | [] => 0
  | c :: cs => (if c.toNat < 0x10000 then 1 else 2) + jsLength cs

/-- `s.split('\n')`: the pieces of `s` between line feeds; never empty
(`''.split('\n')` is `['']`). -/
def splitLines : Str → List Str
  | [] => [[]]
  | c :: cs =>
    if c = '\n' then [] :: splitLines cs
    else
      match splitLines cs with
      | [] => [[c]]
      | l :: ls => (c :: l) :: ls

/-! ## The line pattern `/^([A-Z_][A-Z0-9_]*)=?(.*)$/` -/

/-- Character class `[A-Z_]`. -/
def isKeyStart (c : Char) : Bool :=
  (65 ≤ c.toNat && c.toNat ≤ 90) || c.toNat == 95

/-- Character class `[A-Z0-9_]`. -/
def isKeyChar (c : Char) : Bool :=
  (65 ≤ c.toNat && c.toNat ≤ 90) || (48 ≤ c.toNat && c.toNat ≤ 57) || c.toNat == 95

/-- The atom `.`: any character but a line terminator. -/
def isDot (c : Char) : Bool :=
  !isLineTerminator c

/-- A greedy `X*` for a one-character class `X`, by backtracking: first try to
take one more character, and only if the rest of the pattern then fails, hand
what was taken so far (`acc`) and the remaining input to the continuation. -/
def starThen {α : Type} (p : Char → Bool) (k : Str → Str → Option α) :
    Str → Str → Option α
  | acc, [] => k acc []
  | acc, c :: cs =>
    if p c then
      match starThen p k (acc ++ [c]) cs with
      | some r => some r
      | none => k acc (c :: cs)
    else k acc (c :: cs)

/-- The tail `(.*)$`: capture a greedy run of `.` and require the end of the
input after it. -/
def dotStarEnd (input : Str) : Option Str :=
  starThen isDot (fun value rest => if rest.isEmpty then some value else none) [] input

/-- The part `=?(.*)$`: a greedy optional `=` (first with it, then without). -/
def optEqThen : Str → Option Str
  | [] => dotStarEnd []
  | c :: rest =>
    if c = '=' then
      match dotStarEnd rest with
      | some value => some value
      | none => dotStarEnd (c :: rest)
    else dotStarEnd (c :: rest)

/-- The call `line.match(/^([A-Z_][A-Z0-9_]*)=?(.*)$/)`: `none` for `null`, and
otherwise the two captures `(match[1], match[2])`. -/
def regexMatch (line : Str) : Option (Str × Str) :=
  match line with
  | [] => none
  | c :: cs =>
    if isKeyStart c then
      starThen isKeyChar
        (fun key rest =>
          match optEqThen rest with
          | some value => some (key, value)
          | none => none)
        [c] cs
    else none

/-! ## Variables, issues and the line loop -/

/-- An entry of the `variables` array: `{ key, value, line }`. -/
structure Variable where
  key : Str
  value : Str
  line : Nat
  deriving DecidableEq, Repr

/-- An entry of the `issues` array.  The source pushes the rendered text
(`Issue.message`); the constructor records which of the four `push` sites made
it and the values interpolated into the text. -/
inductive Issue where
  | emptyValue (line : Nat) (key : Str)
  | hasSpaces (line : Nat) (key : Str)
  | weakSecret (line : Nat) (key : Str)
  | unparsable (line : Nat) (content : Str)
  deriving DecidableEq, Repr

/-- Decimal rendering of a number inside a template literal. -/
def showNat (n : Nat) : Str :=
  (Nat.repr n).toList

/-- The text pushed onto `issues`. -/
def Issue.message : Issue → Str
  | .emptyValue n key =>
    "⚠️  Line ".toList ++ showNat n ++ ": ".toList ++ key ++
      " has empty value. Hope that\x27s intentional!".toList
  | .hasSpaces n key =>
    "⚠️  Line ".toList ++ showNat n ++ ": ".toList ++ key ++
      " has spaces. Quoting is for quitters!".toList
  | .weakSecret n key =>
    "⚠️  Line ".toList ++ showNat n ++ ": ".toList ++ key ++
      " looks weak. Hackers love easy mode!".toList
  | .unparsable n content =>
    "❌ Line ".toList ++ showNat n ++ ": Can\x27t parse \"".toList ++ content ++
      "\". Is this even English?".toList

/-- Whether the issue is the parse-failure one. -/
def Issue.isUnparsable : Issue → Bool
  | .unparsable _ _ => true
  | _ => false

/-- The line number an issue names. -/
def Issue.line : Issue → Nat
  | .emptyValue n _ => n
  | .hasSpaces n _ => n
  | .weakSecret n _ => n
  | .unparsable n _ => n

/-- The two arrays the line loop fills: `vars` is the array `variables`
(a reserved word here) and `issues` the array `issues`. -/
structure ParseState where
  vars : List Variable
  issues : List Issue
  deriving DecidableEq, Repr

/-- The statement `issues.push(i)`. -/
def ParseState.pushIssue (st : ParseState) (i : Issue) : ParseState :=
  { st with issues := st.issues ++ [i] }

/-- The statement `variables.push(v)`. -/
def ParseState.pushVariable (st : ParseState) (v : Variable) : ParseState :=
  { st with vars := st.vars ++ [v] }

/-- The three `if` statements after `variables.push`, run in sequence. -/
def analyze (st : ParseState) (index : Nat) (key value : Str) : ParseState :=
  let st1 := if value = [] then st.pushIssue (.emptyValue (index + 1) key) else st
  let st2 := if includes value [' '] then st1.pushIssue (.hasSpaces (index + 1) key) else st1
  if includes key "SECRET".toList && decide (jsLength value < 10) then
    st2.pushIssue (.weakSecret (index + 1) key)
  else st2

/-- The body of the `forEach` callback for the element `raw` at `index`. -/
def lineStep (st : ParseState) (index : Nat) (raw : Str) : ParseState :=
  let line := trim raw
  if line.isEmpty || startsWith line ['#'] then st
  else
    match regexMatch line with
    | some (key, match2) =>
      let value := if match2.isEmpty then [] else match2
      analyze (st.pushVariable ⟨key, value, index + 1⟩) index key value
    | none => st.pushIssue (.unparsable (index + 1) line)

/-- The loop `lines.forEach((line, index) => ...)`, from element `index` on. -/
def forEachLine : List Str → Nat → ParseState → ParseState
  | [], _, st => st
  | raw :: rest, index, st => forEachLine rest (index + 1) (lineStep st index raw)

/-- Lines 43-75 of the source: split the content and run the line loop on
empty arrays. -/
def parse (content : Str) : ParseState :=
  forEachLine (splitLines content) 0 ⟨[], []⟩

/-! ## The report -/

/-- The number printed before `%` in the last line: `'100%'` when there is no
issue, and `Math.max(10, 100 - issues.length * 10)` otherwise.  The subtraction
is over the integers (it goes negative from 11 issues on). -/
def confidence (issueCount : Nat) : Int :=
  if issueCount = 0 then 100 else max 10 (100 - (issueCount : Int) * 10)

/-- The conditional expression that picks what is shown after `KEY=`. -/
def displayValue (v : Variable) : Str :=
  if includes v.key "SECRET".toList || includes v.key "KEY".toList then "********".toList
  else v.value

/-- The line logged for one variable. -/
def variableLine (v : Variable) : Str :=
  "   ".toList ++ v.key ++ "=".toList ++ displayValue v

/-- The lines logged from line 78 of the source to the end. -/
def reportLines (st : ParseState) : List Str :=
  [("📊 Found ".toList ++ showNat st.vars.length ++ " environment variables:".toList)] ++
  st.vars.map variableLine ++
  ["\n🔍 Issues found:".toList] ++
  (if st.issues.length = 0 then
    ["   🎉 None! Your config is... suspiciously perfect. Did you cheat?".toList]
   else
    st.issues.map (fun issue => "   ".toList ++ issue.message) ++
    [("\n💀 Found ".toList ++ showNat st.issues.length ++
      " potential issues. Good luck with that!".toList)]) ++
  [("\n🎲 Roulette complete! Your app has a ".toList ++
    (toString (confidence st.issues.length)).toList ++ "% ".toList ++
    "chance of working. Probably.".toList)]

/-! ## Locating and reading the file -/

/-- The constant `envFiles`. -/
def envFiles : List Str :=
  [".env".toList, ".env.local".toList, ".env.development".toList, ".env.production".toList]

/-- The `for ... of` loop with its `break`: `foundEnv` is the first candidate
for which `fs.existsSync` answers true, and stays `null` (`none`) otherwise. -/
def findEnv (existsSync : Str → Bool) : List Str → Option Str
  | [] => none
  | envFile :: rest => if existsSync envFile then some envFile else findEnv existsSync rest

/-- The test `!foundEnv`: true for `null` and for the empty string. -/
def isFalsy : Option Str → Bool
  | none => true
  | some s => s.isEmpty

/-- How a run ends. -/
inductive Outcome where
  | notFound
  | readFailed (file : Str) (message : Str)
  | reported (file : Str) (st : ParseState) (score : Int)
  deriving DecidableEq, Repr

/-- The function `playEnvRoulette`, over the candidate list, the answers of
`fs.existsSync` and the result of `fs.readFileSync(file, 'utf8')` (the content,
or the message of the error thrown). -/
def playWith (candidates : List Str) (existsSync : Str → Bool)
    (readFileSync : Str → Except Str Str) : Outcome :=
  let foundEnv := findEnv existsSync candidates
  if isFalsy foundEnv then .notFound
  else
    match foundEnv with
    | none => .notFound
    | some file =>
      match readFileSync file with
      | .error message => .readFailed file message
      | .ok envContent =>
        let st := parse envContent
        .reported file st (confidence st.issues.length)

/-- The function `playEnvRoulette` with the source's candidate list. -/
def playEnvRoulette (existsSync : Str → Bool) (readFileSync : Str → Except Str Str) : Outcome :=
  playWith envFiles existsSync readFileSync

/-- The two lines logged before anything else. -/
def bannerLines : List Str :=
  ["🎰 Spinning the ENV Roulette wheel...".toList,
   "💀 May the odds be ever in your favor (they won\x27t be)\n".toList]

/-- The line logged inside the loop when a candidate exists. -/
def foundLine (file : Str) : Str :=
  "🎯 Found ".toList ++ file ++ "! Because who needs consistent naming?".toList

/-- Everything a run logs with `console.log`, one entry per call. -/
def Outcome.console : Outcome → List Str
  | .notFound =>
    bannerLines ++
    ["❌ No .env file found. Your app will probably crash. Surprise!".toList,
     "💡 Pro tip: Create a .env file. Or don\x27t. I\x27m not your mom.".toList]
  | .readFailed file message =>
    bannerLines ++
    [foundLine file,
     "📖 Can\x27t read ".toList ++ file ++ ". Maybe it\x27s shy? Error: ".toList ++ message]
  | .reported file st _ =>
    bannerLines ++ [foundLine file] ++ reportLines st

/-- The variables a run produced (none when it ended before the line loop). -/
def Outcome.variables? : Outcome → Option (List Variable)
  | .reported _ st _ => some st.vars
  | _ => none

/-- The issues a run produced (none when it ended before the line loop). -/
def Outcome.issues? : Outcome → Option (List Issue)
  | .reported _ st _ => some st.issues
  | _ => none

/-- The confidence score a run printed (none when it printed no report). -/
def Outcome.score? : Outcome → Option Int
  | .reported _ _ score => some score
  | _ => none

/-! ## The grammar of the specification -/

/-- A key: a word of `[A-Z_][A-Z0-9_]*`. -/
def isKey : Str → Bool
  | [] => false
  | c :: cs => isKeyStart c && cs.all isKeyChar

/-- The grammar the specification gives for an assignment line,
`^[A-Z_][A-Z0-9_]*(=.*)?$`: a key, optionally followed by `=` and by any
characters that `.` accepts. -/
def SpecGrammar (line : Str) : Prop :=
  ∃ key : Str, isKey key = true ∧
    (line = key ∨ ∃ rest : Str, rest.all isDot = true ∧ line = key ++ '=' :: rest)

/-! ## Definitions used to state and prove the properties -/

/-- The input after an optional leading `=`. -/
def stripEq : Str → Str
  | [] => []
  | c :: rest => if c = '=' then rest else c :: rest

/-- What one line adds to the two arrays: the callback run on empty arrays. -/
def lineOut (index : Nat) (raw : Str) : ParseState :=
  lineStep ⟨[], []⟩ index raw

/-- The variables of a state that carry the line number `n`. -/
def varsOfLine (st : ParseState) (n : Nat) : List Variable :=
  st.vars.filter (fun v => decide (v.line = n))

/-- The issues of a state that name the line number `n`. -/
def issuesOfLine (st : ParseState) (n : Nat) : List Issue :=
  st.issues.filter (fun i => decide (i.line = n))

/-- Whether a raw line is neither blank nor a comment once trimmed. -/
def isEntry (raw : Str) : Bool :=
  decide (trim raw ≠ [] ∧ (trim raw).head? ≠ some '#')

/-- The warnings of one variable, as a list. -/
def warnings (index : Nat) (key value : Str) : List Issue :=
  (analyze ⟨[], []⟩ index key value).issues

/-- The variables the loop adds for the lines `ls`, the first of which has
index `index`. -/
def loopVars : List Str → Nat → List Variable
  | [], _ => []
  | raw :: rest, index => (lineOut index raw).vars ++ loopVars rest (index + 1)

/-- The issues the loop adds for the lines `ls`, the first of which has index
`index`. -/
def loopIssues : List Str → Nat → List Issue
  | [], _ => []
  | raw :: rest, index => (lineOut index raw).issues ++ loopIssues rest (index + 1)

/-- Whether the pattern accepts a trimmed line: it starts with `[A-Z_]` and
holds no line terminator after that. -/
def accepts : Str → Bool
  | [] => false
  | c :: cs => isKeyStart c && cs.all isDot

/-- The first capture: the longest prefix of key characters. -/
def keyOf (t : Str) : Str :=
  t.takeWhile isKeyChar

/-- The second capture: what follows the key, less one leading `=`. -/
def valueOf (t : Str) : Str :=
  stripEq (t.dropWhile isKeyChar)

/-- A variable with its line number moved down by `n` lines. -/
def Variable.shift (n : Nat) (v : Variable) : Variable :=
  { v with line := v.line + n }

/-- An issue with the line number it names moved down by `n` lines. -/
def Issue.shift (n : Nat) : Issue → Issue
  | .emptyValue line key => .emptyValue (line + n) key
  | .hasSpaces line key => .hasSpaces (line + n) key
  | .weakSecret line key => .weakSecret (line + n) key
  | .unparsable line content => .unparsable (line + n) content

/-! ## The pattern, without backtracking -/

theorem isDot_of_isKeyChar {c : Char} (h : isKeyChar c = true) : isDot c = true := by
  simp only [isKeyChar, isDot, isLineTerminator, Bool.or_eq_true, Bool.and_eq_true,
    decide_eq_true_eq, beq_iff_eq, Bool.not_eq_true', Bool.or_eq_false_iff,
    beq_eq_false_iff_ne, ne_eq] at h ⊢
  omega

theorem isKeyChar_of_isKeyStart {c : Char} (h : isKeyStart c = true) : isKeyChar c = true := by
  simp only [isKeyChar, isKeyStart, Bool.or_eq_true, Bool.and_eq_true,
    decide_eq_true_eq, beq_iff_eq] at h ⊢
  omega

theorem ne_eq_of_isKeyChar {c : Char} (h : isKeyChar c = true) : c ≠ '=' := by
  rintro rfl
  revert h
  decide

theorem isTrimChar_false_of_isKeyChar {c : Char} (h : isKeyChar c = true) :
    isTrimChar c = false := by
  simp only [isKeyChar, isTrimChar, isWhiteSpace, isLineTerminator, Bool.or_eq_true,
    Bool.and_eq_true, decide_eq_true_eq, beq_iff_eq, Bool.or_eq_false_iff,
    beq_eq_false_iff_ne, ne_eq, Bool.and_eq_false_imp] at h ⊢
  omega

theorem starThen_dotEnd (acc s : Str) :
    starThen isDot (fun value rest => if rest.isEmpty then some value else none) acc s =
      if s.all isDot = true then some (acc ++ s) else none := by
  induction s generalizing acc with
  | nil => simp [starThen]
  | cons c cs ih =>
    rw [starThen]
    by_cases hc : isDot c = true
    · rw [if_pos hc, ih]
      by_cases hcs : cs.all isDot = true
      · simp [hc, hcs]
      · simp [hc, hcs]
    · rw [if_neg hc]
      simp [hc]

theorem dotStarEnd_eq (s : Str) :
    dotStarEnd s = if s.all isDot = true then some s else none := by
  rw [dotStarEnd, starThen_dotEnd]
  simp

theorem optEqThen_eq (s : Str) :
    optEqThen s = if s.all isDot = true then some (stripEq s) else none := by
  cases s with
  | nil => simp [optEqThen, dotStarEnd_eq, stripEq]
  | cons c rest =>
    by_cases hc : c = '='
    · subst hc
      have hd : isDot '=' = true := by decide
      by_cases hr : rest.all isDot = true
      · simp [optEqThen, dotStarEnd_eq, stripEq, hr, hd]
      · simp [optEqThen, dotStarEnd_eq, stripEq, hr, hd]
    · simp [optEqThen, dotStarEnd_eq, stripEq, hc]

theorem starThen_key (acc s : Str) :
    starThen isKeyChar
        (fun key rest =>
          match optEqThen rest with
          | some value => some (key, value)
          | none => none) acc s =
      if s.all isDot = true then
        some (acc ++ s.takeWhile isKeyChar, stripEq (s.dropWhile isKeyChar))
      else none := by
  induction s generalizing acc with
  | nil => simp [starThen, optEqThen_eq, stripEq]
  | cons c cs ih =>
    rw [starThen]
    by_cases hc : isKeyChar c = true
    · have hd := isDot_of_isKeyChar hc
      have hne := ne_eq_of_isKeyChar hc
      rw [if_pos hc, ih]
      by_cases hcs : cs.all isDot = true
      · simp [hc, hcs, hd]
      · simp [hc, hcs, hd, optEqThen_eq]
    · rw [if_neg hc]
      by_cases hcs : (c :: cs).all isDot = true
      · simp [hc, optEqThen_eq, hcs]
      · simp [hc, optEqThen_eq, hcs]

/-- The pattern matches exactly the lines that start with `[A-Z_]` and hold no
line terminator; the key is then the longest run of `[A-Z0-9_]` and the value
what follows it, less one leading `=`. -/
theorem regexMatch_eq (c : Char) (cs : Str) :
    regexMatch (c :: cs) =
      if isKeyStart c = true ∧ cs.all isDot = true then
        some (c :: cs.takeWhile isKeyChar, stripEq (cs.dropWhile isKeyChar))
      else none := by
  rw [regexMatch]
  by_cases hc : isKeyStart c = true
  · rw [if_pos hc, starThen_key]
    by_cases hcs : cs.all isDot = true
    · simp [hc, hcs]
    · simp [hc, hcs]
  · simp [hc]

/-! ## The line loop, line by line -/

theorem startsWith_hash (t : Str) : startsWith t ['#'] = decide (t.head? = some '#') := by
  cases t with
  | nil => simp [startsWith]
  | cons c cs =>
    cases cs <;> by_cases hc : c = '#' <;> simp [startsWith, hc]

theorem skip_iff (raw : Str) :
    ((trim raw).isEmpty || startsWith (trim raw) ['#']) = !isEntry raw := by
  rw [startsWith_hash, isEntry]
  cases h : trim raw <;> simp

theorem analyze_vars (st : ParseState) (index : Nat) (key value : Str) :
    (analyze st index key value).vars = st.vars := by
  unfold analyze
  simp only [ParseState.pushIssue]
  split_ifs <;> rfl

theorem analyze_issues (st : ParseState) (index : Nat) (key value : Str) :
    (analyze st index key value).issues = st.issues ++ warnings index key value := by
  unfold warnings analyze
  simp only [ParseState.pushIssue]
  split_ifs <;> simp

theorem lineStep_vars (st : ParseState) (index : Nat) (raw : Str) :
    (lineStep st index raw).vars = st.vars ++ (lineOut index raw).vars := by
  unfold lineOut lineStep
  simp only
  split_ifs
  · simp
  · split
    · simp [analyze_vars, ParseState.pushVariable]
    · simp [ParseState.pushIssue]

theorem lineStep_issues (st : ParseState) (index : Nat) (raw : Str) :
    (lineStep st index raw).issues = st.issues ++ (lineOut index raw).issues := by
  unfold lineOut lineStep
  simp only
  split_ifs
  · simp
  · split
    · simp [analyze_issues, ParseState.pushVariable]
    · simp [ParseState.pushIssue]

theorem forEachLine_vars (ls : List Str) (index : Nat) (st : ParseState) :
    (forEachLine ls index st).vars = st.vars ++ loopVars ls index := by
  induction ls generalizing index st with
  | nil => simp [forEachLine, loopVars]
  | cons raw rest ih => simp [forEachLine, loopVars, ih, lineStep_vars]

theorem forEachLine_issues (ls : List Str) (index : Nat) (st : ParseState) :
    (forEachLine ls index st).issues = st.issues ++ loopIssues ls index := by
  induction ls generalizing index st with
  | nil => simp [forEachLine, loopIssues]
  | cons raw rest ih => simp [forEachLine, loopIssues, ih, lineStep_issues]

theorem parse_vars (content : Str) :
    (parse content).vars = loopVars (splitLines content) 0 := by
  simp [parse, forEachLine_vars]

theorem parse_issues (content : Str) :
    (parse content).issues = loopIssues (splitLines content) 0 := by
  simp [parse, forEachLine_issues]

/-! ## `startsWith` and `includes` as prefix and substring -/

theorem startsWith_iff (s p : Str) : startsWith s p = true ↔ p <+: s := by
  induction s generalizing p with
  | nil => cases p <;> simp [startsWith]
  | cons c cs ih =>
    cases p with
    | nil => simp [startsWith]
    | cons d ds =>
      simp only [startsWith, Bool.and_eq_true, beq_iff_eq, ih, List.cons_prefix_cons]
      constructor
      · rintro ⟨h1, h2⟩
        exact ⟨h1.symm, h2⟩
      · rintro ⟨h1, h2⟩
        exact ⟨h1.symm, h2⟩

theorem includes_iff (s p : Str) : includes s p = true ↔ p <:+: s := by
  induction s with
  | nil =>
    cases p with
    | nil => simp [includes, startsWith]
    | cons d ds => simp [includes, startsWith]
  | cons c cs ih =>
    simp only [includes, Bool.or_eq_true, startsWith_iff, ih, List.infix_cons_iff]

theorem includes_space_iff (s : Str) : includes s [' '] = true ↔ ' ' ∈ s := by
  rw [includes_iff]
  constructor
  · intro h
    exact List.singleton_sublist.mp h.sublist
  · intro h
    obtain ⟨a, b, hab⟩ := List.append_of_mem h
    exact ⟨a, b, by simp [hab]⟩

/-! ## What one line contributes -/

theorem regexMatch_accepts (t : Str) :
    regexMatch t = if accepts t = true then some (keyOf t, valueOf t) else none := by
  cases t with
  | nil => simp [regexMatch, accepts]
  | cons c cs =>
    rw [regexMatch_eq]
    by_cases hc : isKeyStart c = true
    · have hk := isKeyChar_of_isKeyStart hc
      simp [accepts, keyOf, valueOf, hc, hk]
    · simp [accepts, hc]

theorem lineOut_eq (index : Nat) (raw : Str) :
    lineOut index raw =
      if isEntry raw = true then
        if accepts (trim raw) = true then
          ⟨[⟨keyOf (trim raw), valueOf (trim raw), index + 1⟩],
            warnings index (keyOf (trim raw)) (valueOf (trim raw))⟩
        else ⟨[], [.unparsable (index + 1) (trim raw)]⟩
      else ⟨[], []⟩ := by
  unfold lineOut lineStep
  simp only [skip_iff, regexMatch_accepts]
  by_cases he : isEntry raw = true
  · by_cases ha : accepts (trim raw) = true
    · simp only [he, ha, if_true, Bool.not_true, Bool.false_eq_true, if_false]
      have hv : (if (valueOf (trim raw)).isEmpty = true then [] else valueOf (trim raw))
          = valueOf (trim raw) := by
        cases valueOf (trim raw) <;> simp
      rw [hv]
      cases hst : analyze (ParseState.pushVariable ⟨[], []⟩
        ⟨keyOf (trim raw), valueOf (trim raw), index + 1⟩) index (keyOf (trim raw))
        (valueOf (trim raw)) with
      | mk vs is =>
        have h1 := analyze_vars (ParseState.pushVariable ⟨[], []⟩
          ⟨keyOf (trim raw), valueOf (trim raw), index + 1⟩) index (keyOf (trim raw))
          (valueOf (trim raw))
        have h2 := analyze_issues (ParseState.pushVariable ⟨[], []⟩
          ⟨keyOf (trim raw), valueOf (trim raw), index + 1⟩) index (keyOf (trim raw))
          (valueOf (trim raw))
        rw [hst] at h1 h2
        simp [ParseState.pushVariable] at h1 h2
        simp [h1, h2]
    · simp [he, ha, ParseState.pushIssue]
  · simp [he]

/-- The warnings of a variable are the triggered rules, in the order of the
three `if` statements. -/
theorem warnings_eq (index : Nat) (key value : Str) :
    warnings index key value =
      (if value = [] then [Issue.emptyValue (index + 1) key] else []) ++
      (if ' ' ∈ value then [Issue.hasSpaces (index + 1) key] else []) ++
      (if "SECRET".toList <:+: key ∧ jsLength value < 10 then
        [Issue.weakSecret (index + 1) key] else []) := by
  unfold warnings analyze
  simp only [includes_space_iff]
  simp only [ParseState.pushIssue, Bool.and_eq_true, decide_eq_true_eq, includes_iff]
  split_ifs <;> simp

theorem warnings_not_unparsable (index : Nat) (key value : Str) :
    (warnings index key value).filter Issue.isUnparsable = [] := by
  rw [warnings_eq]
  split_ifs <;> simp [Issue.isUnparsable]

theorem warnings_line (index : Nat) (key value : Str) :
    ∀ x ∈ warnings index key value, x.line = index + 1 := by
  intro x hx
  rw [warnings_eq] at hx
  simp only [List.mem_append] at hx
  rcases hx with (hx | hx) | hx
  · split_ifs at hx <;> simp_all [Issue.line]
  · split_ifs at hx <;> simp_all [Issue.line]
  · split_ifs at hx <;> simp_all [Issue.line]

theorem lineOut_count (index : Nat) (raw : Str) :
    (lineOut index raw).vars.length +
      ((lineOut index raw).issues.filter Issue.isUnparsable).length =
      if isEntry raw = true then 1 else 0 := by
  rw [lineOut_eq]
  by_cases he : isEntry raw = true
  · by_cases ha : accepts (trim raw) = true
    · simp [he, ha, warnings_not_unparsable]
    · simp [he, ha, Issue.isUnparsable]
  · simp [he]

theorem loop_count (ls : List Str) (index : Nat) :
    (loopVars ls index).length + ((loopIssues ls index).filter Issue.isUnparsable).length =
      (ls.filter isEntry).length := by
  induction ls generalizing index with
  | nil => simp [loopVars, loopIssues]
  | cons raw rest ih =>
    have h1 := lineOut_count index raw
    have h2 := ih (index + 1)
    simp only [loopVars, loopIssues, List.length_append, List.filter_append, List.filter_cons]
    cases he : isEntry raw
    · rw [he] at h1
      simp only [Bool.false_eq_true, if_false] at h1 ⊢
      omega
    · rw [he] at h1
      simp only [if_true, List.length_cons] at h1 ⊢
      omega

theorem lineOut_vars_line (index : Nat) (raw : Str) :
    ∀ v ∈ (lineOut index raw).vars, v.line = index + 1 := by
  intro v hv
  rw [lineOut_eq] at hv
  split_ifs at hv <;> simp_all

theorem lineOut_issues_line (index : Nat) (raw : Str) :
    ∀ x ∈ (lineOut index raw).issues, x.line = index + 1 := by
  intro x hx
  rw [lineOut_eq] at hx
  split_ifs at hx
  · exact warnings_line _ _ _ x hx
  · simp_all [Issue.line]
  · simp_all

theorem loopVars_line_gt (ls : List Str) (index : Nat) :
    ∀ v ∈ loopVars ls index, index < v.line := by
  induction ls generalizing index with
  | nil => simp [loopVars]
  | cons raw rest ih =>
    intro v hv
    simp only [loopVars, List.mem_append] at hv
    rcases hv with hv | hv
    · have := lineOut_vars_line index raw v hv
      omega
    · have := ih (index + 1) v hv
      omega

theorem loopIssues_line_gt (ls : List Str) (index : Nat) :
    ∀ x ∈ loopIssues ls index, index < x.line := by
  induction ls generalizing index with
  | nil => simp [loopIssues]
  | cons raw rest ih =>
    intro x hx
    simp only [loopIssues, List.mem_append] at hx
    rcases hx with hx | hx
    · have := lineOut_issues_line index raw x hx
      omega
    · have := ih (index + 1) x hx
      omega

theorem loopVars_filter (ls : List Str) (index j : Nat) (raw : Str) (h : ls[j]? = some raw) :
    (loopVars ls index).filter (fun v => decide (v.line = index + j + 1)) =
      (lineOut (index + j) raw).vars := by
  induction ls generalizing index j with
  | nil => simp at h
  | cons l rest ih =>
    simp only [loopVars, List.filter_append]
    cases j with
    | zero =>
      simp only [List.getElem?_cons_zero, Option.some.injEq] at h
      subst h
      have h1 : (lineOut index l).vars.filter (fun v => decide (v.line = index + 0 + 1)) =
          (lineOut index l).vars := by
        rw [List.filter_eq_self]
        intro v hv
        simp [lineOut_vars_line index l v hv]
      have h2 : (loopVars rest (index + 1)).filter (fun v => decide (v.line = index + 0 + 1)) =
          [] := by
        rw [List.filter_eq_nil_iff]
        intro v hv
        have := loopVars_line_gt rest (index + 1) v hv
        simp only [decide_eq_true_eq]
        omega
      rw [h1, h2]
      simp
    | succ j =>
      simp only [List.getElem?_cons_succ] at h
      have h1 : (lineOut index l).vars.filter
          (fun v => decide (v.line = index + (j + 1) + 1)) = [] := by
        rw [List.filter_eq_nil_iff]
        intro v hv
        have := lineOut_vars_line index l v hv
        simp only [decide_eq_true_eq]
        omega
      have h2 := ih (index + 1) j h
      have e1 : index + (j + 1) + 1 = index + 1 + j + 1 := by omega
      have e2 : index + (j + 1) = index + 1 + j := by omega
      rw [h1, e1, e2, h2]
      simp

theorem loopIssues_filter (ls : List Str) (index j : Nat) (raw : Str) (h : ls[j]? = some raw) :
    (loopIssues ls index).filter (fun x => decide (x.line = index + j + 1)) =
      (lineOut (index + j) raw).issues := by
  induction ls generalizing index j with
  | nil => simp at h
  | cons l rest ih =>
    simp only [loopIssues, List.filter_append]
    cases j with
    | zero =>
      simp only [List.getElem?_cons_zero, Option.some.injEq] at h
      subst h
      have h1 : (lineOut index l).issues.filter (fun x => decide (x.line = index + 0 + 1)) =
          (lineOut index l).issues := by
        rw [List.filter_eq_self]
        intro x hx
        simp [lineOut_issues_line index l x hx]
      have h2 : (loopIssues rest (index + 1)).filter
          (fun x => decide (x.line = index + 0 + 1)) = [] := by
        rw [List.filter_eq_nil_iff]
        intro x hx
        have := loopIssues_line_gt rest (index + 1) x hx
        simp only [decide_eq_true_eq]
        omega
      rw [h1, h2]
      simp
    | succ j =>
      simp only [List.getElem?_cons_succ] at h
      have h1 : (lineOut index l).issues.filter
          (fun x => decide (x.line = index + (j + 1) + 1)) = [] := by
        rw [List.filter_eq_nil_iff]
        intro x hx
        have := lineOut_issues_line index l x hx
        simp only [decide_eq_true_eq]
        omega
      have h2 := ih (index + 1) j h
      have e1 : index + (j + 1) + 1 = index + 1 + j + 1 := by omega
      have e2 : index + (j + 1) = index + 1 + j := by omega
      rw [h1, e1, e2, h2]
      simp

/-- The variables of `parse content` with line number `i + 1` are those the
callback makes for the element of index `i`. -/
theorem varsOfLine_parse (content : Str) (i : Nat) (raw : Str)
    (h : (splitLines content)[i]? = some raw) :
    varsOfLine (parse content) (i + 1) = (lineOut i raw).vars := by
  have := loopVars_filter (splitLines content) 0 i raw h
  simpa [varsOfLine, parse_vars] using this

/-- The issues of `parse content` that name line `i + 1` are those the callback
makes for the element of index `i`. -/
theorem issuesOfLine_parse (content : Str) (i : Nat) (raw : Str)
    (h : (splitLines content)[i]? = some raw) :
    issuesOfLine (parse content) (i + 1) = (lineOut i raw).issues := by
  have := loopIssues_filter (splitLines content) 0 i raw h
  simpa [issuesOfLine, parse_issues] using this

/-- The text of an issue tells the parse failure from the warnings: only the
former starts with the cross mark. -/
theorem message_head_iff (i : Issue) :
    i.message.head? = some '❌' ↔ i.isUnparsable = true := by
  cases i <;> simp [Issue.message, Issue.isUnparsable]

/-! ## The grammar of the specification against the pattern of the code -/

theorem all_isDot_of_all_isKeyChar {ks : Str} (h : ks.all isKeyChar = true) :
    ks.all isDot = true := by
  simp only [List.all_eq_true] at h ⊢
  intro c hc
  exact isDot_of_isKeyChar (h c hc)

theorem accepts_of_specGrammar {t : Str} (h : SpecGrammar t) : accepts t = true := by
  obtain ⟨key, hkey, h⟩ := h
  cases key with
  | nil => simp [isKey] at hkey
  | cons c ks =>
    simp only [isKey, Bool.and_eq_true] at hkey
    have hks := all_isDot_of_all_isKeyChar hkey.2
    rcases h with h | ⟨rest, hrest, h⟩
    · subst h
      simp [accepts, hkey.1, hks]
    · subst h
      have hd : isDot '=' = true := by decide
      simp only [accepts, List.cons_append, List.all_append, List.all_cons, Bool.and_eq_true]
      exact ⟨hkey.1, hks, hd, hrest⟩

theorem not_specGrammar_of_space {t : Str} (hsp : t.all isKeyChar = false)
    (heq : '=' ∉ t) : ¬ SpecGrammar t := by
  rintro ⟨key, hkey, h | ⟨rest, _, h⟩⟩
  · rw [h] at hsp
    cases key with
    | nil => simp [isKey] at hkey
    | cons c ks =>
      simp only [isKey, Bool.and_eq_true] at hkey
      have : (c :: ks).all isKeyChar = true := by
        simp only [List.all_cons, Bool.and_eq_true]
        exact ⟨isKeyChar_of_isKeyStart hkey.1, hkey.2⟩
      rw [this] at hsp
      exact Bool.noConfusion hsp
  · apply heq
    rw [h]
    simp

theorem mem_vars_line_iff (st : ParseState) (n : Nat) :
    (∃ v ∈ st.vars, v.line = n) ↔ varsOfLine st n ≠ [] := by
  unfold varsOfLine
  rw [Ne, List.filter_eq_nil_iff]
  simp

/-! ## The split -/

theorem splitLines_ne_nil (s : Str) : splitLines s ≠ [] := by
  cases s with
  | nil => simp [splitLines]
  | cons c cs =>
    simp only [splitLines]
    split_ifs
    · simp
    · split <;> simp

/-- No piece of a split holds a line feed. -/
theorem splitLines_no_newline (s : Str) : ∀ l ∈ splitLines s, '\n' ∉ l := by
  induction s with
  | nil => simp [splitLines]
  | cons c cs ih =>
    intro l hl
    simp only [splitLines] at hl
    by_cases hc : c = '\n'
    · simp only [hc, if_true, List.mem_cons] at hl
      rcases hl with rfl | hl
      · simp
      · exact ih l hl
    · simp only [hc, if_false] at hl
      cases hs : splitLines cs with
      | nil => exact absurd hs (splitLines_ne_nil cs)
      | cons x xs =>
        rw [hs] at hl ih
        simp only [List.mem_cons] at hl
        rcases hl with rfl | hl
        · have := ih x (by simp)
          simp only [List.mem_cons, not_or]
          exact ⟨fun e => hc e.symm, this⟩
        · exact ih l (by simp [hl])

/-- Joining the pieces with line feeds gives the content back. -/
theorem splitLines_join (s : Str) : List.intercalate ['\n'] (splitLines s) = s := by
  induction s with
  | nil => simp [splitLines, List.intercalate]
  | cons c cs ih =>
    cases hs : splitLines cs with
    | nil => exact absurd hs (splitLines_ne_nil cs)
    | cons x xs =>
      rw [hs] at ih
      by_cases hc : c = '\n'
      · simp only [splitLines, hc, if_true, hs]
        simp only [List.intercalate, List.intersperse] at ih ⊢
        simp [ih]
      · simp only [splitLines, hc, if_false, hs]
        cases xs with
        | nil =>
          simp only [List.intercalate, List.intersperse] at ih ⊢
          simp at ih ⊢
          exact ih
        | cons y ys =>
          simp only [List.intercalate, List.intersperse] at ih ⊢
          simp at ih ⊢
          exact ih

/-! ## One-line contents -/

theorem splitLines_single {s : Str} (h : '\n' ∉ s) : splitLines s = [s] := by
  induction s with
  | nil => rfl
  | cons c cs ih =>
    simp only [List.mem_cons, not_or] at h
    have hc : c ≠ '\n' := fun e => h.1 e.symm
    simp [splitLines, hc, ih h.2]

theorem parse_single {s : Str} (h : '\n' ∉ s) : parse s = lineOut 0 s := by
  cases hp : parse s with
  | mk vs is =>
    have h1 := parse_vars s
    have h2 := parse_issues s
    rw [hp, splitLines_single h] at h1 h2
    simp only [loopVars, loopIssues, List.append_nil] at h1 h2
    cases hl : lineOut 0 s with
    | mk vs2 is2 =>
      rw [hl] at h1 h2
      simp only at h1 h2
      rw [h1, h2]

theorem dropWhile_append_stop (p : Char → Bool) (a b : Str) (x : Char) (hx : p x = false) :
    (a ++ x :: b).dropWhile p = a.dropWhile p ++ x :: b := by
  induction a with
  | nil => simp [List.dropWhile, hx]
  | cons c cs ih =>
    by_cases hc : p c = true
    · simp [List.dropWhile, hc, ih]
    · simp [List.dropWhile, hc]

theorem rdropWhile_append_stop (p : Char → Bool) (a b : Str) (x : Char) (hx : p x = false) :
    (a ++ x :: b).rdropWhile p = a ++ x :: b.rdropWhile p := by
  unfold List.rdropWhile
  have h : (a ++ x :: b).reverse = b.reverse ++ x :: a.reverse := by simp
  rw [h, dropWhile_append_stop p _ _ x hx]
  simp

theorem rdropWhile_of_all_false (p : Char → Bool) (l : Str) (h : ∀ c ∈ l, p c = false) :
    l.rdropWhile p = l := by
  rw [List.rdropWhile_eq_self_iff]
  intro hl
  simp [h _ (List.getLast_mem hl)]

theorem takeWhile_append_stop (p : Char → Bool) (a b : Str) (x : Char)
    (ha : a.all p = true) (hx : p x = false) :
    (a ++ x :: b).takeWhile p = a := by
  induction a with
  | nil => simp [List.takeWhile, hx]
  | cons c cs ih =>
    simp only [List.all_cons, Bool.and_eq_true] at ha
    simp [List.takeWhile, ha.1, ih ha.2]

theorem dropWhile_append_all (p : Char → Bool) (a b : Str) (x : Char)
    (ha : a.all p = true) (hx : p x = false) :
    (a ++ x :: b).dropWhile p = x :: b := by
  induction a with
  | nil => simp [List.dropWhile, hx]
  | cons c cs ih =>
    simp only [List.all_cons, Bool.and_eq_true] at ha
    simp [List.dropWhile, ha.1, ih ha.2]

theorem isKey_all {key : Str} (h : isKey key = true) : key.all isKeyChar = true := by
  cases key with
  | nil => simp [isKey] at h
  | cons c ks =>
    simp only [isKey, Bool.and_eq_true] at h
    simp only [List.all_cons, Bool.and_eq_true]
    exact ⟨isKeyChar_of_isKeyStart h.1, h.2⟩

theorem isKey_newline {key : Str} (h : isKey key = true) : '\n' ∉ key := by
  intro hm
  have := isKey_all h
  simp only [List.all_eq_true] at this
  have h2 := this _ hm
  revert h2
  decide

theorem trimStart_key_append {key : Str} (h : isKey key = true) (rest : Str) :
    trimStart (key ++ rest) = key ++ rest := by
  cases key with
  | nil => simp [isKey] at h
  | cons c ks =>
    simp only [isKey, Bool.and_eq_true] at h
    have := isTrimChar_false_of_isKeyChar (isKeyChar_of_isKeyStart h.1)
    simp [trimStart, List.dropWhile, this]

/-- Trimming an assignment line only touches the end of the value. -/
theorem trim_assignment {key : Str} (h : isKey key = true) (v : Str) :
    trim (key ++ '=' :: v) = key ++ '=' :: trimEnd v := by
  have he : isTrimChar '=' = false := by decide
  rw [trim, trimStart_key_append h, trimEnd, rdropWhile_append_stop _ _ _ _ he]
  rfl

/-- Trimming a bare key leaves it as it is. -/
theorem trim_key {key : Str} (h : isKey key = true) : trim key = key := by
  have h0 := trimStart_key_append h []
  rw [List.append_nil] at h0
  rw [trim, h0, trimEnd]
  apply rdropWhile_of_all_false
  intro c hc
  have := isKey_all h
  simp only [List.all_eq_true] at this
  exact isTrimChar_false_of_isKeyChar (this c hc)

theorem isEntry_of_key_head {raw key : Str} (rest : Str) (hkey : isKey key = true)
    (ht : trim raw = key ++ rest) : isEntry raw = true := by
  cases key with
  | nil => simp [isKey] at hkey
  | cons c ks =>
    simp only [isKey, Bool.and_eq_true] at hkey
    have hc : c ≠ '#' := by
      rintro rfl
      have := hkey.1
      revert this
      decide
    simp [isEntry, ht, hc]

/-- A line whose trimmed form is `key=w`, with no line terminator in `w`. -/
theorem lineOut_assignment (index : Nat) (raw key w : Str) (hkey : isKey key = true)
    (hw : w.all isDot = true) (ht : trim raw = key ++ '=' :: w) :
    lineOut index raw = ⟨[⟨key, w, index + 1⟩], warnings index key w⟩ := by
  have he := isEntry_of_key_head _ hkey ht
  have hall := isKey_all hkey
  have hne : isKeyChar '=' = false := by decide
  have hd : isDot '=' = true := by decide
  have hacc : accepts (key ++ '=' :: w) = true := by
    apply accepts_of_specGrammar
    exact ⟨key, hkey, Or.inr ⟨w, hw, rfl⟩⟩
  have hk : keyOf (key ++ '=' :: w) = key := by
    rw [keyOf, takeWhile_append_stop _ _ _ _ hall hne]
  have hv : valueOf (key ++ '=' :: w) = w := by
    rw [valueOf, dropWhile_append_all _ _ _ _ hall hne]
    simp [stripEq]
  rw [lineOut_eq, ht]
  simp [he, hacc, hk, hv]

/-- A line whose trimmed form is a bare key. -/
theorem lineOut_bare (index : Nat) (raw key : Str) (hkey : isKey key = true)
    (ht : trim raw = key) :
    lineOut index raw = ⟨[⟨key, [], index + 1⟩], warnings index key []⟩ := by
  have he : isEntry raw = true :=
    isEntry_of_key_head [] hkey (by simpa using ht)
  have hall := isKey_all hkey
  have hacc : accepts key = true := accepts_of_specGrammar ⟨key, hkey, Or.inl rfl⟩
  have hk : keyOf key = key := by
    rw [keyOf, List.takeWhile_eq_self_iff]
    simpa [List.all_eq_true] using hall
  have hv : valueOf key = [] := by
    have : key.dropWhile isKeyChar = [] := by
      rw [List.dropWhile_eq_nil_iff]
      simpa [List.all_eq_true] using hall
    rw [valueOf, this]
    rfl
  rw [lineOut_eq, ht]
  simp [he, hacc, hk, hv]

theorem mem_loopVars {ls : List Str} {index : Nat} {v : Variable}
    (h : v ∈ loopVars ls index) :
    ∃ j raw, ls[j]? = some raw ∧ v ∈ (lineOut (index + j) raw).vars := by
  induction ls generalizing index with
  | nil => simp [loopVars] at h
  | cons l rest ih =>
    simp only [loopVars, List.mem_append] at h
    rcases h with h | h
    · exact ⟨0, l, by simp, by simpa using h⟩
    · obtain ⟨j, raw, h1, h2⟩ := ih h
      refine ⟨j + 1, raw, by simpa using h1, ?_⟩
      have e : index + (j + 1) = index + 1 + j := by omega
      rw [e]
      exact h2

theorem trimEnd_eq_self_of_last {v : Str}
    (h : ∀ c, v.getLast? = some c → isTrimChar c = false) : trimEnd v = v := by
  rw [trimEnd, List.rdropWhile_eq_self_iff]
  intro hl
  have := h (v.getLast hl) (List.getLast?_eq_getLast _ hl)
  simp [this]

theorem all_isDot_of_not_trim {v : Str}
    (h : ∀ c ∈ v, isWhiteSpace c = false ∧ isLineTerminator c = false) :
    v.all isDot = true := by
  simp only [List.all_eq_true]
  intro c hc
  simp [isDot, (h c hc).2]

theorem not_mem_newline_of_all_isDot {v : Str} (h : v.all isDot = true) : '\n' ∉ v := by
  intro hm
  simp only [List.all_eq_true] at h
  have := h _ hm
  revert this
  decide

theorem not_mem_space_of_not_trim {v : Str}
    (h : ∀ c ∈ v, isWhiteSpace c = false ∧ isLineTerminator c = false) : ' ' ∉ v := by
  intro hm
  have := (h _ hm).1
  revert this
  decide

theorem not_mem_newline_assignment {key v : Str} (hkey : isKey key = true) (hv : '\n' ∉ v) :
    '\n' ∉ key ++ '=' :: v := by
  have hk := isKey_newline hkey
  have he : '\n' ≠ '=' := by decide
  simp [hk, hv, he]

/-! ## The locator -/

theorem findEnv_eq_none_iff (existsSync : Str → Bool) (candidates : List Str) :
    findEnv existsSync candidates = none ↔ ∀ g ∈ candidates, existsSync g = false := by
  induction candidates with
  | nil => simp [findEnv]
  | cons f rest ih =>
    by_cases hf : existsSync f = true
    · simp [findEnv, hf]
    · simp [findEnv, hf, ih]

theorem findEnv_eq_some_iff (existsSync : Str → Bool) (candidates : List Str) (f : Str) :
    findEnv existsSync candidates = some f ↔
      ∃ before after, candidates = before ++ f :: after ∧ existsSync f = true ∧
        ∀ g ∈ before, existsSync g = false := by
  induction candidates with
  | nil => simp [findEnv]
  | cons c rest ih =>
    by_cases hc : existsSync c = true
    · simp only [findEnv, hc, if_true, Option.some.injEq]
      constructor
      · rintro rfl
        exact ⟨[], rest, rfl, hc, by simp⟩
      · rintro ⟨before, after, heq, _, hb⟩
        cases before with
        | nil =>
          simp only [List.nil_append, List.cons.injEq] at heq
          exact heq.1
        | cons b bs =>
          simp only [List.cons_append, List.cons.injEq] at heq
          have := hb b (by simp)
          rw [← heq.1, hc] at this
          exact Bool.noConfusion this
    · simp only [findEnv, hc, Bool.false_eq_true, if_false, ih]
      constructor
      · rintro ⟨before, after, heq, hf, hb⟩
        refine ⟨c :: before, after, by simp [heq], hf, ?_⟩
        intro g hg
        simp only [List.mem_cons] at hg
        rcases hg with rfl | hg
        · simpa using hc
        · exact hb g hg
      · rintro ⟨before, after, heq, hf, hb⟩
        cases before with
        | nil =>
          simp only [List.nil_append, List.cons.injEq] at heq
          rw [← heq.1] at hf
          exact absurd hf hc
        | cons b bs =>
          simp only [List.cons_append, List.cons.injEq] at heq
          exact ⟨bs, after, heq.2, hf, fun g hg => hb g (by simp [hg])⟩

theorem findEnv_mem {existsSync : Str → Bool} {candidates : List Str} {f : Str}
    (h : findEnv existsSync candidates = some f) : f ∈ candidates := by
  obtain ⟨before, after, heq, _, _⟩ := (findEnv_eq_some_iff existsSync candidates f).mp h
  simp [heq]

theorem envFiles_ne_nil : ∀ f ∈ envFiles, f ≠ [] := by
  decide

theorem playEnvRoulette_none {existsSync : Str → Bool} (readFileSync : Str → Except Str Str)
    (h : findEnv existsSync envFiles = none) :
    playEnvRoulette existsSync readFileSync = .notFound := by
  simp [playEnvRoulette, playWith, h, isFalsy]

theorem playEnvRoulette_some {existsSync : Str → Bool} (readFileSync : Str → Except Str Str)
    {file : Str} (h : findEnv existsSync envFiles = some file) :
    playEnvRoulette existsSync readFileSync =
      match readFileSync file with
      | .error message => .readFailed file message
      | .ok envContent =>
        .reported file (parse envContent) (confidence (parse envContent).issues.length) := by
  have hne : file ≠ [] := envFiles_ne_nil file (findEnv_mem h)
  have hf : isFalsy (some file) = false := by
    cases file with
    | nil => exact absurd rfl hne
    | cons c cs => rfl
  simp only [playEnvRoulette, playWith, h, hf]
  rfl

/-! ## The whole result, and what its entries look like -/

theorem parse_eq (content : Str) :
    parse content = ⟨loopVars (splitLines content) 0, loopIssues (splitLines content) 0⟩ := by
  have h1 := parse_vars content
  have h2 := parse_issues content
  cases hp : parse content with
  | mk vs is =>
    rw [hp] at h1 h2
    simp only at h1 h2
    rw [h1, h2]

theorem isEntry_eq_false_iff (raw : Str) :
    isEntry raw = false ↔ trim raw = [] ∨ (trim raw).head? = some '#' := by
  unfold isEntry
  rw [decide_eq_false_iff_not]
  tauto

theorem lineOut_of_not_entry (index : Nat) {raw : Str} (h : isEntry raw = false) :
    lineOut index raw = ⟨[], []⟩ := by
  rw [lineOut_eq]
  simp [h]

theorem loop_nil_of_no_entry (ls : List Str) (index : Nat)
    (h : ∀ raw ∈ ls, isEntry raw = false) :
    loopVars ls index = [] ∧ loopIssues ls index = [] := by
  induction ls generalizing index with
  | nil => simp [loopVars, loopIssues]
  | cons raw rest ih =>
    have h1 := lineOut_of_not_entry index (h raw (by simp))
    have h2 := ih (index + 1) (fun r hr => h r (by simp [hr]))
    simp [loopVars, loopIssues, h1, h2]

theorem isKey_keyOf {t : Str} (h : accepts t = true) : isKey (keyOf t) = true := by
  cases t with
  | nil => simp [accepts] at h
  | cons c cs =>
    simp only [accepts, Bool.and_eq_true] at h
    have hk := isKeyChar_of_isKeyStart h.1
    simp only [keyOf, List.takeWhile, hk, isKey, h.1, Bool.true_and, List.all_eq_true]
    intro d hd
    exact (List.mem_takeWhile_imp hd)

theorem isKey_iff (key : Str) :
    isKey key = true ↔
      ∃ c cs, key = c :: cs ∧ isKeyStart c = true ∧ ∀ d ∈ cs, isKeyChar d = true := by
  cases key with
  | nil => simp [isKey]
  | cons c cs =>
    simp only [isKey, Bool.and_eq_true, List.all_eq_true]
    constructor
    · rintro ⟨h1, h2⟩
      exact ⟨c, cs, rfl, h1, h2⟩
    · rintro ⟨d, ds, heq, h1, h2⟩
      simp only [List.cons.injEq] at heq
      rw [heq.1, heq.2]
      exact ⟨h1, h2⟩

theorem lineOut_vars_key (index : Nat) (raw : Str) :
    ∀ v ∈ (lineOut index raw).vars, isKey v.key = true := by
  intro v hv
  rw [lineOut_eq] at hv
  by_cases he : isEntry raw = true
  · by_cases ha : accepts (trim raw) = true
    · simp only [he, ha, if_true, List.mem_singleton] at hv
      subst hv
      exact isKey_keyOf ha
    · simp [he, ha] at hv
  · simp [he] at hv

theorem confidence_eq (n : Nat) :
    confidence n = if n = 0 then 100 else if n ≤ 9 then 100 - 10 * (n : Int) else 10 := by
  unfold confidence
  split_ifs with h0 h9
  · rfl
  · rw [max_eq_right (by omega)]
    omega
  · rw [max_eq_left (by omega)]

/-! ## Order and number of the entries -/

theorem lineOut_vars_length_le (index : Nat) (raw : Str) :
    (lineOut index raw).vars.length ≤ 1 := by
  rw [lineOut_eq]
  split_ifs <;> simp

theorem warnings_length_le (index : Nat) (key value : Str) :
    (warnings index key value).length ≤ 2 := by
  rw [warnings_eq]
  by_cases hv : value = []
  · subst hv
    simp only [List.not_mem_nil, if_true, if_false, List.append_nil, List.length_append,
      List.length_singleton]
    split_ifs <;> simp
  · simp only [hv, if_false, List.nil_append, List.length_append]
    split_ifs <;> simp

theorem warnings_not_both (index : Nat) (key value : Str) (n n2 : Nat) (k k2 : Str) :
    ¬ (Issue.emptyValue n k ∈ warnings index key value ∧
      Issue.hasSpaces n2 k2 ∈ warnings index key value) := by
  rw [warnings_eq]
  rintro ⟨h1, h2⟩
  by_cases hv : value = []
  · subst hv
    simp only [List.not_mem_nil, if_true, if_false, List.append_nil, List.mem_append,
      List.mem_singleton] at h2
    rcases h2 with h2 | h2
    · exact Issue.noConfusion h2
    · split_ifs at h2
      · simp at h2
      · simp at h2
  · simp only [hv, if_false, List.nil_append, List.mem_append] at h1
    rcases h1 with h1 | h1
    · split_ifs at h1
      · simp at h1
      · simp at h1
    · split_ifs at h1
      · simp at h1
      · simp at h1

theorem lineOut_issues_length_le (index : Nat) (raw : Str) :
    (lineOut index raw).issues.length ≤ if isEntry raw = true then 2 else 0 := by
  rw [lineOut_eq]
  by_cases he : isEntry raw = true
  · by_cases ha : accepts (trim raw) = true
    · simp only [he, ha, if_true]
      exact warnings_length_le _ _ _
    · simp [he, ha]
  · simp [he]

theorem lineOut_issues_not_both (index : Nat) (raw : Str) (n n2 : Nat) (k k2 : Str) :
    ¬ (Issue.emptyValue n k ∈ (lineOut index raw).issues ∧
      Issue.hasSpaces n2 k2 ∈ (lineOut index raw).issues) := by
  rw [lineOut_eq]
  by_cases he : isEntry raw = true
  · by_cases ha : accepts (trim raw) = true
    · simp only [he, ha, if_true]
      exact warnings_not_both _ _ _ _ _ _ _
    · simp [he, ha]
  · simp [he]

theorem loopIssues_length_le (ls : List Str) (index : Nat) :
    (loopIssues ls index).length ≤ 2 * (ls.filter isEntry).length := by
  induction ls generalizing index with
  | nil => simp [loopIssues]
  | cons raw rest ih =>
    have h1 := lineOut_issues_length_le index raw
    have h2 := ih (index + 1)
    simp only [loopIssues, List.length_append, List.filter_cons]
    cases he : isEntry raw
    · rw [he] at h1
      simp only [Bool.false_eq_true, if_false] at h1 ⊢
      omega
    · rw [he] at h1
      simp only [if_true, List.length_cons] at h1 ⊢
      omega

theorem mem_loopIssues {ls : List Str} {index : Nat} {x : Issue}
    (h : x ∈ loopIssues ls index) :
    ∃ j raw, ls[j]? = some raw ∧ x ∈ (lineOut (index + j) raw).issues := by
  induction ls generalizing index with
  | nil => simp [loopIssues] at h
  | cons l rest ih =>
    simp only [loopIssues, List.mem_append] at h
    rcases h with h | h
    · exact ⟨0, l, by simp, by simpa using h⟩
    · obtain ⟨j, raw, h1, h2⟩ := ih h
      refine ⟨j + 1, raw, by simpa using h1, ?_⟩
      have e : index + (j + 1) = index + 1 + j := by omega
      rw [e]
      exact h2

theorem loopIssues_filter_length_le (ls : List Str) (index n : Nat) :
    ((loopIssues ls index).filter (fun x => decide (x.line = n))).length ≤ 2 := by
  induction ls generalizing index with
  | nil => simp [loopIssues]
  | cons raw rest ih =>
    simp only [loopIssues, List.filter_append, List.length_append]
    by_cases hn : n = index + 1
    · have h2 : (loopIssues rest (index + 1)).filter (fun x => decide (x.line = n)) = [] := by
        rw [List.filter_eq_nil_iff]
        intro x hx
        have := loopIssues_line_gt rest (index + 1) x hx
        simp only [decide_eq_true_eq]
        omega
      have h1 := lineOut_issues_length_le index raw
      have h3 := List.length_filter_le (fun x => decide (x.line = n)) (lineOut index raw).issues
      rw [h2]
      simp only [List.length_nil, Nat.add_zero]
      split_ifs at h1 <;> omega
    · have h1 : (lineOut index raw).issues.filter (fun x => decide (x.line = n)) = [] := by
        rw [List.filter_eq_nil_iff]
        intro x hx
        have := lineOut_issues_line index raw x hx
        simp only [decide_eq_true_eq]
        omega
      rw [h1]
      simpa using ih (index + 1)

theorem loopVars_pairwise (ls : List Str) (index : Nat) :
    (loopVars ls index).Pairwise (fun a b => a.line < b.line) := by
  induction ls generalizing index with
  | nil => simp [loopVars]
  | cons raw rest ih =>
    simp only [loopVars]
    rw [List.pairwise_append]
    refine ⟨?_, ih (index + 1), ?_⟩
    · have hlen := lineOut_vars_length_le index raw
      cases hv : (lineOut index raw).vars with
      | nil => exact List.Pairwise.nil
      | cons a as =>
        rw [hv] at hlen
        cases as with
        | nil => simp
        | cons b bs => simp at hlen
    · intro a ha b hb
      have h1 := lineOut_vars_line index raw a ha
      have h2 := loopVars_line_gt rest (index + 1) b hb
      omega

theorem loopIssues_pairwise (ls : List Str) (index : Nat) :
    (loopIssues ls index).Pairwise (fun a b => a.line ≤ b.line) := by
  induction ls generalizing index with
  | nil => simp [loopIssues]
  | cons raw rest ih =>
    simp only [loopIssues]
    rw [List.pairwise_append]
    refine ⟨?_, ih (index + 1), ?_⟩
    · apply List.pairwise_of_forall_mem_list
      intro a ha b hb
      have h1 := lineOut_issues_line index raw a ha
      have h2 := lineOut_issues_line index raw b hb
      omega
    · intro a ha b hb
      have h1 := lineOut_issues_line index raw a ha
      have h2 := loopIssues_line_gt rest (index + 1) b hb
      omega

/-! ## Accepted lines -/

theorem mem_of_mem_trim {raw : Str} {c : Char} (h : c ∈ trim raw) : c ∈ raw := by
  unfold trim trimEnd trimStart at h
  have h1 : c ∈ raw.dropWhile isTrimChar := (List.rdropWhile_prefix isTrimChar _).subset h
  exact (List.dropWhile_sublist isTrimChar).subset h1

theorem stripEq_eq (rest : Str) :
    stripEq rest = if rest.head? = some '=' then rest.tail else rest := by
  cases rest with
  | nil => simp [stripEq]
  | cons c cs =>
    by_cases hc : c = '='
    · simp [stripEq, hc]
    · simp [stripEq, hc]

theorem isDot_of_toNat {d : Char} (h10 : d ≠ '\n') (h13 : d.toNat ≠ 0x0D)
    (h2028 : d.toNat ≠ 0x2028) (h2029 : d.toNat ≠ 0x2029) : isDot d = true := by
  have hn : d.toNat ≠ 0x0A := by
    intro e
    apply h10
    have := Char.ofNat_toNat d
    rw [e] at this
    exact this.symm
  simp [isDot, isLineTerminator, hn, h13, h2028, h2029]

/-! ## Composition over lines -/

theorem splitLines_append (a b : Str) :
    splitLines (a ++ '\n' :: b) = splitLines a ++ splitLines b := by
  induction a with
  | nil => simp [splitLines]
  | cons c cs ih =>
    by_cases hc : c = '\n'
    · simp [splitLines, hc, ih]
    · cases hs : splitLines cs with
      | nil => exact absurd hs (splitLines_ne_nil cs)
      | cons x xs =>
        rw [List.cons_append, splitLines, if_neg hc, ih, hs]
        simp [splitLines, hc, hs]

theorem splitLines_length (a : Str) : (splitLines a).length = a.count '\n' + 1 := by
  induction a with
  | nil => simp [splitLines]
  | cons c cs ih =>
    by_cases hc : c = '\n'
    · simp [splitLines, hc, ih]
    · cases hs : splitLines cs with
      | nil => exact absurd hs (splitLines_ne_nil cs)
      | cons x xs =>
        rw [hs] at ih
        have hne : (c == '\n') = false := by simpa using hc
        simp only [splitLines, hc, if_false, hs, List.length_cons, List.count_cons, hne,
          Bool.false_eq_true] at ih ⊢
        omega

theorem warnings_shift (index n : Nat) (key value : Str) :
    warnings (index + n) key value = (warnings index key value).map (Issue.shift n) := by
  rw [warnings_eq, warnings_eq]
  have e : index + n + 1 = index + 1 + n := by omega
  rw [e]
  split_ifs <;> simp [Issue.shift]

theorem lineOut_shift (index n : Nat) (raw : Str) :
    (lineOut (index + n) raw).vars = (lineOut index raw).vars.map (Variable.shift n) ∧
    (lineOut (index + n) raw).issues = (lineOut index raw).issues.map (Issue.shift n) := by
  rw [lineOut_eq, lineOut_eq]
  have e : index + n + 1 = index + 1 + n := by omega
  by_cases he : isEntry raw = true
  · by_cases ha : accepts (trim raw) = true
    · simp [he, ha, warnings_shift, Variable.shift, e]
    · simp [he, ha, Issue.shift, e]
  · simp [he]

theorem loop_shift (ls : List Str) (index n : Nat) :
    loopVars ls (index + n) = (loopVars ls index).map (Variable.shift n) ∧
    loopIssues ls (index + n) = (loopIssues ls index).map (Issue.shift n) := by
  induction ls generalizing index with
  | nil => simp [loopVars, loopIssues]
  | cons raw rest ih =>
    have h1 := lineOut_shift index n raw
    have h2 := ih (index + 1)
    have e : index + n + 1 = index + 1 + n := by omega
    constructor
    · rw [loopVars, loopVars, List.map_append, h1.1, e, h2.1]
    · rw [loopIssues, loopIssues, List.map_append, h1.2, e, h2.2]

theorem loop_append (xs ys : List Str) (index : Nat) :
    loopVars (xs ++ ys) index = loopVars xs index ++ loopVars ys (index + xs.length) ∧
    loopIssues (xs ++ ys) index = loopIssues xs index ++ loopIssues ys (index + xs.length) := by
  induction xs generalizing index with
  | nil => simp [loopVars, loopIssues]
  | cons raw rest ih =>
    have h := ih (index + 1)
    have e : index + 1 + rest.length = index + (rest.length + 1) := by omega
    constructor
    · rw [List.cons_append, loopVars, loopVars, h.1, e, List.length_cons, List.append_assoc]
    · rw [List.cons_append, loopIssues, loopIssues, h.2, e, List.length_cons,
        List.append_assoc]

/-! ## Nothing is merged or dropped -/

theorem lineOut_vars_eq (index : Nat) (raw : Str) :
    (lineOut index raw).vars =
      if (isEntry raw && accepts (trim raw)) = true then
        [⟨keyOf (trim raw), valueOf (trim raw), index + 1⟩]
      else [] := by
  rw [lineOut_eq]
  cases he : isEntry raw <;> cases ha : accepts (trim raw) <;> simp

theorem loopVars_enumFrom (ls : List Str) (index : Nat) :
    loopVars ls index =
      ((ls.enumFrom index).filter (fun p => isEntry p.2 && accepts (trim p.2))).map
        (fun p => (⟨keyOf (trim p.2), valueOf (trim p.2), p.1 + 1⟩ : Variable)) := by
  induction ls generalizing index with
  | nil => simp [loopVars]
  | cons raw rest ih =>
    rw [loopVars, lineOut_vars_eq, ih (index + 1), List.enumFrom_cons, List.filter_cons]
    cases h : (isEntry raw && accepts (trim raw)) <;> simp [h]

theorem loopVars_length (ls : List Str) (index : Nat) :
    (loopVars ls index).length =
      (ls.filter (fun raw => isEntry raw && accepts (trim raw))).length := by
  induction ls generalizing index with
  | nil => simp [loopVars]
  | cons raw rest ih =>
    rw [loopVars, lineOut_vars_eq, List.length_append, ih (index + 1), List.filter_cons]
    cases h : (isEntry raw && accepts (trim raw))
    · simp [h]
    · simp [h]
      omega

theorem mem_vars_of_accepted (content : Str) (i : Nat) (raw : Str)
    (hline : (splitLines content)[i]? = some raw)
    (he : isEntry raw = true) (ha : accepts (trim raw) = true) :
    (⟨keyOf (trim raw), valueOf (trim raw), i + 1⟩ : Variable) ∈ (parse content).vars := by
  have h := varsOfLine_parse content i raw hline
  rw [lineOut_vars_eq] at h
  simp only [he, ha, Bool.and_self, if_true] at h
  have hm : (⟨keyOf (trim raw), valueOf (trim raw), i + 1⟩ : Variable) ∈
      varsOfLine (parse content) (i + 1) := by
    rw [h]
    simp
  exact (List.mem_filter.mp hm).1

theorem pair_sublist_of_pairwise {vs : List Variable} {a b : Variable}
    (hp : vs.Pairwise (fun x y => x.line < y.line)) (ha : a ∈ vs) (hb : b ∈ vs)
    (hab : a.line < b.line) : List.Sublist [a, b] vs := by
  obtain ⟨l1, l2, rfl⟩ := List.append_of_mem ha
  rw [List.pairwise_append] at hp
  have hb2 : b ∈ l2 := by
    simp only [List.mem_append, List.mem_cons] at hb
    rcases hb with hb | hb | hb
    · have := hp.2.2 b hb a (by simp)
      omega
    · rw [hb] at hab
      omega
    · exact hb
  have h1 : List.Sublist [a, b] (a :: l2) :=
    List.Sublist.cons₂ a (List.singleton_sublist.mpr hb2)
  exact h1.trans (List.sublist_append_right l1 (a :: l2))

/-! ## Claims -/

/-- C1. For every content string, the number of variables plus the number of
unparsable-line issues made by the parse step equals the number of lines whose
trimmed form is non-empty and does not start with `#`. -/
theorem parse_variables_plus_unparsable (content : Str) :
    (parse content).vars.length + ((parse content).issues.filter Issue.isUnparsable).length =
      ((splitLines content).filter
        (fun raw => decide (trim raw ≠ [] ∧ (trim raw).head? ≠ some '#'))).length := by
  rw [parse_vars, parse_issues]
  exact loop_count (splitLines content) 0

/-- C2, as stated, fails: the line `FOO bar` is neither blank nor a comment, it
yields the variable `FOO` with value ` bar`, and it does not fit the grammar
`^[A-Z_][A-Z0-9_]*(=.*)?$`. -/
theorem grammar_iff_fails :
    (splitLines "FOO bar".toList)[0]? = some "FOO bar".toList ∧
    trim "FOO bar".toList ≠ [] ∧
    (trim "FOO bar".toList).head? ≠ some '#' ∧
    varsOfLine (parse "FOO bar".toList) 1 = [⟨"FOO".toList, " bar".toList, 1⟩] ∧
    ¬ SpecGrammar (trim "FOO bar".toList) := by
  refine ⟨by decide, by decide, by decide, by decide, ?_⟩
  exact not_specGrammar_of_space (by decide) (by decide)

/-- C2, amended.  A line that is neither blank nor a comment yields a variable
if and only if its trimmed form starts with `[A-Z_]` and holds no line
terminator (`accepts`), which every line of the grammar does; the variable is
then the only one of that line and the line has no unparsable-line issue.
Every other such line yields no variable and exactly one issue, the
unparsable-line one with the line number and the trimmed line. -/
theorem line_variable_iff_accepts (content : Str) (i : Nat) (raw : Str)
    (hline : (splitLines content)[i]? = some raw)
    (hne : trim raw ≠ []) (hhash : (trim raw).head? ≠ some '#') :
    ((∃ v ∈ (parse content).vars, v.line = i + 1) ↔ accepts (trim raw) = true) ∧
    (SpecGrammar (trim raw) → accepts (trim raw) = true) ∧
    (accepts (trim raw) = true →
      varsOfLine (parse content) (i + 1) =
        [⟨keyOf (trim raw), valueOf (trim raw), i + 1⟩] ∧
      (issuesOfLine (parse content) (i + 1)).filter Issue.isUnparsable = []) ∧
    (accepts (trim raw) = false →
      varsOfLine (parse content) (i + 1) = [] ∧
      issuesOfLine (parse content) (i + 1) = [.unparsable (i + 1) (trim raw)]) := by
  have he : isEntry raw = true := by simp [isEntry, hne, hhash]
  have hv := varsOfLine_parse content i raw hline
  have hi := issuesOfLine_parse content i raw hline
  rw [lineOut_eq] at hv hi
  rw [mem_vars_line_iff, hv, hi]
  refine ⟨?_, accepts_of_specGrammar, ?_, ?_⟩
  · cases ha : accepts (trim raw) <;> simp [he]
  · intro ha
    simp [he, ha, warnings_not_unparsable]
  · intro ha
    simp [he, ha]

/-- The amended C2 at the line `FOO bar` of the content `# c`, `FOO bar`. -/
theorem line_variable_iff_accepts_witness :
    (∃ v ∈ (parse "# c\nFOO bar".toList).vars, v.line = 2) ∧
    varsOfLine (parse "# c\nFOO bar".toList) 2 = [⟨"FOO".toList, " bar".toList, 2⟩] :=
  have h := line_variable_iff_accepts "# c\nFOO bar".toList 1 "FOO bar".toList
    (by decide) (by decide) (by decide)
  ⟨h.1.mpr (by decide), (h.2.2.1 (by decide)).1⟩

/-- C3, as stated, fails.  With the key `FOO` and the value `bar` followed by a
space (no newline in it), the content `FOO=bar ` yields the value `bar`: the
line is trimmed before it is matched.  With the key `A` and the value `x`, CR,
`y` (no line feed in it), the content yields no variable at all. -/
theorem value_verbatim_fails :
    isKey "FOO".toList = true ∧ '\n' ∉ "bar ".toList ∧
    (parse ("FOO".toList ++ '=' :: "bar ".toList)).vars = [⟨"FOO".toList, "bar".toList, 1⟩] ∧
    isKey "A".toList = true ∧ '\n' ∉ "x\ry".toList ∧
    (parse ("A".toList ++ '=' :: "x\ry".toList)).vars = [] := by
  decide

/-- C3, amended.  For every key and every string `v` with no line feed and
whose end-trimmed form holds no line terminator, the one-line content `key=v`
yields exactly one variable, with that key, line 1 and the value `v` less its
trailing white space, otherwise verbatim; the value is `v` itself when `v` does
not end in a white-space or line-terminator character. -/
theorem value_verbatim_up_to_trim (key v : Str) (hkey : isKey key = true)
    (hnl : '\n' ∉ v) (hdot : (trimEnd v).all isDot = true) :
    (parse (key ++ '=' :: v)).vars = [⟨key, trimEnd v, 1⟩] ∧
    ((∀ c, v.getLast? = some c → isTrimChar c = false) → trimEnd v = v) := by
  refine ⟨?_, trimEnd_eq_self_of_last⟩
  rw [parse_single (not_mem_newline_assignment hkey hnl),
    lineOut_assignment 0 _ key (trimEnd v) hkey hdot (trim_assignment hkey v)]

/-- The amended C3 at `URL=a = "b"=c`: further `=` signs, quotes and inner
spaces are kept. -/
theorem value_verbatim_up_to_trim_witness :
    (parse "URL=a = \"b\"=c".toList).vars = [⟨"URL".toList, "a = \"b\"=c".toList, 1⟩] :=
  (value_verbatim_up_to_trim "URL".toList "a = \"b\"=c".toList
    (by decide) (by decide) (by decide)).1

/-- C4. For every variable of `parse content`, the issues that name its line
are exactly the triggered rules, each with the line number and the key, in the
order empty value, embedded space, weak secret; each rule fires on its own
condition only. -/
theorem warnings_are_triggered_rules (content : Str) (v : Variable)
    (hv : v ∈ (parse content).vars) :
    issuesOfLine (parse content) v.line =
      (if v.value = [] then [Issue.emptyValue v.line v.key] else []) ++
      (if ' ' ∈ v.value then [Issue.hasSpaces v.line v.key] else []) ++
      (if "SECRET".toList <:+: v.key ∧ jsLength v.value < 10 then
        [Issue.weakSecret v.line v.key] else []) := by
  rw [parse_vars] at hv
  obtain ⟨i, raw, hline, hmem⟩ := mem_loopVars hv
  rw [Nat.zero_add] at hmem
  have hl := lineOut_vars_line i raw v hmem
  have hi := issuesOfLine_parse content i raw hline
  rw [hl, hi]
  rw [lineOut_eq] at hmem ⊢
  by_cases he : isEntry raw = true
  · by_cases ha : accepts (trim raw) = true
    · simp only [he, ha, if_true, List.mem_singleton] at hmem ⊢
      subst hmem
      exact warnings_eq i _ _
    · simp [he, ha] at hmem
  · simp [he] at hmem

/-- C4 at an empty `API_SECRET`: both the empty-value and the weak-secret
warning, in that order. -/
theorem warnings_are_triggered_rules_witness :
    issuesOfLine (parse "API_SECRET=".toList) 1 =
      [Issue.emptyValue 1 "API_SECRET".toList, Issue.weakSecret 1 "API_SECRET".toList] :=
  (warnings_are_triggered_rules "API_SECRET=".toList ⟨"API_SECRET".toList, [], 1⟩
    (by decide)).trans (by decide)

/-- The examples of C4: `API_SECRET=abc` is weak, `API_SECRET=abcdefghij` is not. -/
theorem weak_secret_examples :
    (parse "API_SECRET=abc".toList).issues = [Issue.weakSecret 1 "API_SECRET".toList] ∧
    (parse "API_SECRET=abcdefghij".toList).issues = [] := by
  decide

/-- C5. The confidence score is 100 for no issue and `max(10, 100 - 10 n)` for
`n > 0` issues; it always lies in `[10, 100]`; it is 70 for 3 issues and 10 for
15 issues. -/
theorem confidence_formula (n : Nat) :
    confidence n = (if n = 0 then 100 else max 10 (100 - 10 * (n : Int))) ∧
    10 ≤ confidence n ∧ confidence n ≤ 100 ∧
    confidence 3 = 70 ∧ confidence 15 = 10 := by
  refine ⟨?_, ?_, ?_, by decide, by decide⟩
  · unfold confidence
    split_ifs
    · rfl
    · congr 1
      omega
  · unfold confidence
    split_ifs
    · omega
    · exact le_max_left _ _
  · unfold confidence
    split_ifs
    · omega
    · apply max_le <;> omega

/-- C6. The line reported for a variable is `KEY=********`, with a mask of
eight characters, when the key contains `SECRET` or `KEY`, and `KEY=VALUE`
otherwise; two variables with the same such key are reported by the same text,
whatever their values. -/
theorem sensitive_value_masked (v : Variable) :
    ("SECRET".toList <:+: v.key ∨ "KEY".toList <:+: v.key →
      variableLine v = "   ".toList ++ v.key ++ "=".toList ++ "********".toList ∧
      (displayValue v).length = 8 ∧
      ∀ w : Variable, w.key = v.key → variableLine w = variableLine v) ∧
    (¬ ("SECRET".toList <:+: v.key ∨ "KEY".toList <:+: v.key) →
      variableLine v = "   ".toList ++ v.key ++ "=".toList ++ v.value) := by
  constructor
  · intro h
    have hv : displayValue v = "********".toList := by
      unfold displayValue
      simp only [Bool.or_eq_true, includes_iff]
      rw [if_pos h]
    refine ⟨by rw [variableLine, hv], by rw [hv]; decide, ?_⟩
    intro w hw
    have hw2 : displayValue w = "********".toList := by
      unfold displayValue
      simp only [Bool.or_eq_true, includes_iff]
      rw [hw, if_pos h]
    rw [variableLine, variableLine, hv, hw2, hw]
  · intro h
    have hv : displayValue v = v.value := by
      unfold displayValue
      simp only [Bool.or_eq_true, includes_iff]
      rw [if_neg h]
    rw [variableLine, hv]

/-- C6 at `API_KEY`: the values `hunter2` and the empty one are both shown as
the mask. -/
theorem sensitive_value_masked_witness :
    variableLine ⟨"API_KEY".toList, "hunter2".toList, 1⟩ = "   API_KEY=********".toList ∧
    variableLine ⟨"API_KEY".toList, [], 7⟩ =
      variableLine ⟨"API_KEY".toList, "hunter2".toList, 1⟩ :=
  have h := (sensitive_value_masked ⟨"API_KEY".toList, "hunter2".toList, 1⟩).1
    (Or.inr (by decide))
  ⟨h.1.trans (by decide), h.2.2 ⟨"API_KEY".toList, [], 7⟩ rfl⟩

/-- C7. For every key, the one-line contents `KEY` and `KEY=` parse to the same
result: the one variable with that key, the empty value and line 1, and the
empty-value warning followed by the weak-secret warning when the key contains
`SECRET`. -/
theorem bare_key_same_as_empty_assignment (key : Str) (hkey : isKey key = true) :
    parse key = parse (key ++ "=".toList) ∧
    parse key =
      ⟨[⟨key, [], 1⟩],
        [Issue.emptyValue 1 key] ++
          (if "SECRET".toList <:+: key then [Issue.weakSecret 1 key] else [])⟩ := by
  have hw : warnings 0 key [] =
      [Issue.emptyValue 1 key] ++
        (if "SECRET".toList <:+: key then [Issue.weakSecret 1 key] else []) := by
    rw [warnings_eq]
    simp [jsLength]
  have h1 : parse key = ⟨[⟨key, [], 1⟩], warnings 0 key []⟩ := by
    rw [parse_single (isKey_newline hkey), lineOut_bare 0 key key hkey (trim_key hkey)]
  have h2 : parse (key ++ "=".toList) = ⟨[⟨key, [], 1⟩], warnings 0 key []⟩ := by
    have hnl : '\n' ∉ key ++ '=' :: [] := not_mem_newline_assignment hkey (by simp)
    have ht : trim (key ++ '=' :: []) = key ++ '=' :: [] := by
      rw [trim_assignment hkey]
      rfl
    show parse (key ++ '=' :: []) = _
    rw [parse_single hnl, lineOut_assignment 0 _ key [] hkey (by simp) ht]
  exact ⟨h1.trans h2.symm, by rw [h1, hw]⟩

/-- C7 at the key `APP_SECRET`. -/
theorem bare_key_same_as_empty_assignment_witness :
    parse "APP_SECRET".toList = parse "APP_SECRET=".toList ∧
    parse "APP_SECRET".toList =
      ⟨[⟨"APP_SECRET".toList, [], 1⟩],
        [Issue.emptyValue 1 "APP_SECRET".toList, Issue.weakSecret 1 "APP_SECRET".toList]⟩ :=
  have h := bare_key_same_as_empty_assignment "APP_SECRET".toList (by decide)
  ⟨h.1, h.2.trans (by decide)⟩

/-- C8. For every key that does not contain `SECRET` and every non-empty value
with no white-space and no line-terminator character, the one-line content
`KEY=value` parses to exactly that variable at line 1 and to no issue, and the
confidence score is 100. -/
theorem clean_assignment_no_issue (key v : Str) (hkey : isKey key = true)
    (hsecret : ¬ "SECRET".toList <:+: key) (hne : v ≠ [])
    (hclean : ∀ c ∈ v, isWhiteSpace c = false ∧ isLineTerminator c = false) :
    parse (key ++ "=".toList ++ v) = ⟨[⟨key, v, 1⟩], []⟩ ∧
    confidence (parse (key ++ "=".toList ++ v)).issues.length = 100 := by
  have hdot := all_isDot_of_not_trim hclean
  have hnl := not_mem_newline_assignment hkey (not_mem_newline_of_all_isDot hdot)
  have htrim : trimEnd v = v := by
    apply rdropWhile_of_all_false
    intro c hc
    simp [isTrimChar, hclean c hc]
  have ht : trim (key ++ '=' :: v) = key ++ '=' :: v := by
    rw [trim_assignment hkey, htrim]
  have hw : warnings 0 key v = [] := by
    rw [warnings_eq, if_neg hne, if_neg (not_mem_space_of_not_trim hclean),
      if_neg (fun h => hsecret h.1)]
    rfl
  have hp : parse (key ++ "=".toList ++ v) = ⟨[⟨key, v, 1⟩], []⟩ := by
    show parse (key ++ ['='] ++ v) = _
    rw [List.append_assoc, List.singleton_append, parse_single hnl,
      lineOut_assignment 0 _ key v hkey hdot ht, hw]
  rw [hp]
  exact ⟨rfl, rfl⟩

/-- C8 at `FOO=bar`. -/
theorem clean_assignment_no_issue_witness :
    parse "FOO=bar".toList = ⟨[⟨"FOO".toList, "bar".toList, 1⟩], []⟩ ∧
    confidence (parse "FOO=bar".toList).issues.length = 100 :=
  clean_assignment_no_issue "FOO".toList "bar".toList (by decide) (by decide) (by decide)
    (by decide)

/-- C9. For every candidate list and every existence predicate, the locator
loop returns a file exactly when it is the first candidate, in list order, for
which the predicate holds, and returns `null` exactly when the predicate holds
for no candidate. -/
theorem findEnv_first_existing (existsSync : Str → Bool) (candidates : List Str) :
    (∀ f, findEnv existsSync candidates = some f ↔
      ∃ before after, candidates = before ++ f :: after ∧ existsSync f = true ∧
        ∀ g ∈ before, existsSync g = false) ∧
    (findEnv existsSync candidates = none ↔ ∀ g ∈ candidates, existsSync g = false) :=
  ⟨findEnv_eq_some_iff existsSync candidates, findEnv_eq_none_iff existsSync candidates⟩

/-- C10. A run over an existence predicate and a read result: when no candidate
exists it ends as not-found, and when the located file cannot be read it ends as
read-failed; in both cases it logs the banner and its message only and makes
no variables, no issues and no score.  When a file is found and read, the run
reports the parse of its content; and a run that made variables, issues or a
score found a file and read it. -/
theorem early_exit_without_report (existsSync : Str → Bool)
    (readFileSync : Str → Except Str Str) :
    ((∀ f ∈ envFiles, existsSync f = false) →
      playEnvRoulette existsSync readFileSync = .notFound) ∧
    (∀ file message, findEnv existsSync envFiles = some file →
      readFileSync file = .error message →
      playEnvRoulette existsSync readFileSync = .readFailed file message) ∧
    (∀ file content, findEnv existsSync envFiles = some file →
      readFileSync file = .ok content →
      playEnvRoulette existsSync readFileSync =
        .reported file (parse content) (confidence (parse content).issues.length)) ∧
    ((playEnvRoulette existsSync readFileSync).variables? ≠ none ∨
      (playEnvRoulette existsSync readFileSync).issues? ≠ none ∨
      (playEnvRoulette existsSync readFileSync).score? ≠ none →
      ∃ file content, findEnv existsSync envFiles = some file ∧
        readFileSync file = .ok content) ∧
    (∀ file message,
      playEnvRoulette existsSync readFileSync = .notFound ∨
      playEnvRoulette existsSync readFileSync = .readFailed file message →
      (playEnvRoulette existsSync readFileSync).variables? = none ∧
      (playEnvRoulette existsSync readFileSync).issues? = none ∧
      (playEnvRoulette existsSync readFileSync).score? = none ∧
      (playEnvRoulette existsSync readFileSync).console.length = 4 ∧
      (playEnvRoulette existsSync readFileSync).console.take 2 = bannerLines) := by
  refine ⟨?_, ?_, ?_, ?_, ?_⟩
  · intro h
    exact playEnvRoulette_none readFileSync ((findEnv_eq_none_iff _ _).mpr h)
  · intro file message hf hr
    rw [playEnvRoulette_some readFileSync hf, hr]
  · intro file content hf hr
    rw [playEnvRoulette_some readFileSync hf, hr]
  · intro h
    cases hf : findEnv existsSync envFiles with
    | none =>
      rw [playEnvRoulette_none readFileSync hf] at h
      simp [Outcome.variables?, Outcome.issues?, Outcome.score?] at h
    | some file =>
      cases hr : readFileSync file with
      | error message =>
        rw [playEnvRoulette_some readFileSync hf, hr] at h
        simp [Outcome.variables?, Outcome.issues?, Outcome.score?] at h
      | ok content => exact ⟨file, content, rfl, hr⟩
  · rintro file message (h | h) <;> rw [h] <;>
      exact ⟨rfl, rfl, rfl, rfl, rfl⟩

/-- C10 when no candidate exists: the run is the not-found one, whatever a read
would give. -/
theorem early_exit_without_report_witness :
    playEnvRoulette (fun _ => false) (fun _ => .ok "FOO=bar".toList) = .notFound :=
  (early_exit_without_report (fun _ => false) (fun _ => .ok "FOO=bar".toList)).1
    (fun _ _ => rfl)

/-- The read-failure path of C10: `.env` exists and reading it throws. -/
theorem read_failure_example :
    playEnvRoulette (fun f => f == ".env".toList) (fun _ => .error "EACCES".toList) =
      .readFailed ".env".toList "EACCES".toList ∧
    (playEnvRoulette (fun f => f == ".env".toList)
      (fun _ => .error "EACCES".toList)).console =
      bannerLines ++
        [foundLine ".env".toList,
          "📖 Can\x27t read .env. Maybe it\x27s shy? Error: EACCES".toList] := by
  decide

/-- C11. For every content in which every line, once trimmed, is empty or
starts with `#`, the parse yields no variable and no issue, and the confidence
score is 100. -/
theorem blank_and_comment_lines_emit_nothing (content : Str)
    (h : ∀ raw ∈ splitLines content, trim raw = [] ∨ (trim raw).head? = some '#') :
    parse content = ⟨[], []⟩ ∧ confidence (parse content).issues.length = 100 := by
  have hl := loop_nil_of_no_entry (splitLines content) 0
    (fun raw hr => (isEntry_eq_false_iff raw).mpr (h raw hr))
  have hp : parse content = ⟨[], []⟩ := by
    rw [parse_eq, hl.1, hl.2]
  rw [hp]
  exact ⟨rfl, rfl⟩

/-- C11 at a content of a comment, a blank line, an indented comment and a line
of spaces. -/
theorem blank_and_comment_lines_emit_nothing_witness :
    parse "# top\n\n   # FOO=bar\n  \t ".toList = ⟨[], []⟩ ∧
    confidence (parse "# top\n\n   # FOO=bar\n  \t ".toList).issues.length = 100 :=
  blank_and_comment_lines_emit_nothing "# top\n\n   # FOO=bar\n  \t ".toList (by decide)

/-- C12. Every variable made by the parse has a non-empty key whose first
character is in `[A-Z_]` and whose other characters are in `[A-Z0-9_]`, and a
line number from 1 to the number of lines of the content. -/
theorem variable_invariant (content : Str) (v : Variable) (hv : v ∈ (parse content).vars) :
    v.key ≠ [] ∧
    (∃ c cs, v.key = c :: cs ∧ isKeyStart c = true ∧ ∀ d ∈ cs, isKeyChar d = true) ∧
    1 ≤ v.line ∧ v.line ≤ (splitLines content).length := by
  rw [parse_vars] at hv
  obtain ⟨j, raw, hline, hmem⟩ := mem_loopVars hv
  rw [Nat.zero_add] at hmem
  have hl := lineOut_vars_line j raw v hmem
  have hk := (isKey_iff v.key).mp (lineOut_vars_key j raw v hmem)
  have hj : j < (splitLines content).length := by
    by_contra hge
    rw [List.getElem?_eq_none (by omega)] at hline
    exact Option.noConfusion hline
  obtain ⟨c, cs, hc, hrest⟩ := hk
  refine ⟨by simp [hc], ⟨c, cs, hc, hrest⟩, by omega, by omega⟩

/-- C12 at the second variable of a three-line content. -/
theorem variable_invariant_witness :
    (∃ c cs, "_B2".toList = c :: cs ∧ isKeyStart c = true ∧ ∀ d ∈ cs, isKeyChar d = true) ∧
    1 ≤ 3 ∧ 3 ≤ (splitLines "A=1\noops\n_B2 x".toList).length :=
  (variable_invariant "A=1\noops\n_B2 x".toList ⟨"_B2".toList, " x".toList, 3⟩
    (by decide)).2

/-- C18. The confidence score never grows with the issue count; it is 100
exactly when there is no issue, and it is the floor 10 exactly from 9 issues
on. -/
theorem confidence_monotone :
    (∀ m n : Nat, m ≤ n → confidence n ≤ confidence m) ∧
    (∀ n : Nat, confidence n = 100 ↔ n = 0) ∧
    (∀ n : Nat, confidence n = 10 ↔ 9 ≤ n) := by
  refine ⟨?_, ?_, ?_⟩
  · intro m n hmn
    rw [confidence_eq, confidence_eq]
    split_ifs <;> omega
  · intro n
    rw [confidence_eq]
    split_ifs <;> omega
  · intro n
    rw [confidence_eq]
    split_ifs <;> omega

/-- C13. Every line the pattern accepts gives its own variable, whatever the
keys of the other lines: the variables are exactly the accepted lines, in the
order of the lines and each with its line number, so none is merged or dropped
and two lines with the same key give two entries.  Their line numbers strictly
increase; the line numbers named by the issues never decrease, so that between
two issues of one line there are only issues of that line. -/
theorem entries_in_line_order (content : Str) :
    (parse content).vars.Pairwise (fun a b => a.line < b.line) ∧
    (parse content).issues.Pairwise (fun a b => a.line ≤ b.line) ∧
    (∀ before between after x y,
      (parse content).issues = before ++ x :: (between ++ y :: after) →
      x.line = y.line → ∀ z ∈ between, z.line = x.line) ∧
    (parse content).vars =
      (((splitLines content).enum).filter (fun p => isEntry p.2 && accepts (trim p.2))).map
        (fun p => (⟨keyOf (trim p.2), valueOf (trim p.2), p.1 + 1⟩ : Variable)) ∧
    (parse content).vars.length =
      ((splitLines content).filter (fun raw => isEntry raw && accepts (trim raw))).length ∧
    (∀ i j raw1 raw2, i < j →
      (splitLines content)[i]? = some raw1 → (splitLines content)[j]? = some raw2 →
      isEntry raw1 = true → accepts (trim raw1) = true →
      isEntry raw2 = true → accepts (trim raw2) = true →
      List.Sublist
        [(⟨keyOf (trim raw1), valueOf (trim raw1), i + 1⟩ : Variable),
          ⟨keyOf (trim raw2), valueOf (trim raw2), j + 1⟩]
        (parse content).vars) := by
  have hv := loopVars_pairwise (splitLines content) 0
  have hi := loopIssues_pairwise (splitLines content) 0
  rw [← parse_vars] at hv
  rw [← parse_issues] at hi
  refine ⟨hv, hi, ?_, ?_, ?_, ?_⟩
  · intro before between after x y heq hxy z hz
    rw [heq, List.pairwise_append] at hi
    have h2 := hi.2.1
    rw [List.pairwise_cons, List.pairwise_append] at h2
    have hxz : x.line ≤ z.line := h2.1 z (by simp [hz])
    have hzy : z.line ≤ y.line := h2.2.2.2 z hz y (by simp)
    omega
  · rw [parse_vars, List.enum_eq_enumFrom]
    exact loopVars_enumFrom (splitLines content) 0
  · rw [parse_vars]
    exact loopVars_length (splitLines content) 0
  · intro i j raw1 raw2 hij h1 h2 he1 ha1 he2 ha2
    exact pair_sublist_of_pairwise hv
      (mem_vars_of_accepted content i raw1 h1 he1 ha1)
      (mem_vars_of_accepted content j raw2 h2 he2 ha2)
      (by simpa using hij)

/-- C13 at a content where the key `A` comes on lines 1 and 4: both entries are
kept, in this order, with the entry of `B` between them. -/
theorem entries_in_line_order_witness :
    (parse "A=1\nB=x\n# A=0\nA=2".toList).vars =
      [⟨"A".toList, "1".toList, 1⟩, ⟨"B".toList, "x".toList, 2⟩,
        ⟨"A".toList, "2".toList, 4⟩] ∧
    List.Sublist [(⟨"A".toList, "1".toList, 1⟩ : Variable), ⟨"A".toList, "2".toList, 4⟩]
      (parse "A=1\nB=x\n# A=0\nA=2".toList).vars :=
  have h := entries_in_line_order "A=1\nB=x\n# A=0\nA=2".toList
  ⟨h.2.2.2.1.trans (by decide),
    h.2.2.2.2.2 0 3 "A=1".toList "A=2".toList (by decide) (by decide) (by decide)
      (by decide) (by decide) (by decide) (by decide)⟩

/-- The example of C13: a key given twice is kept twice, in declaration order. -/
theorem duplicate_keys_kept :
    (parse "A=1\nB=x\nA=2".toList).vars =
      [⟨"A".toList, "1".toList, 1⟩, ⟨"B".toList, "x".toList, 2⟩, ⟨"A".toList, "2".toList, 3⟩] := by
  decide

/-- C14. A line whose trimmed form is not empty and starts neither with `#` nor
with a character of `[A-Z_]` yields no variable and exactly one issue: the
unparsable-line one, with the 1-based line number and the trimmed line. -/
theorem unparsable_line_one_issue (content : Str) (i : Nat) (raw : Str) (c : Char) (cs : Str)
    (hline : (splitLines content)[i]? = some raw)
    (ht : trim raw = c :: cs) (hhash : c ≠ '#') (hstart : isKeyStart c = false) :
    varsOfLine (parse content) (i + 1) = [] ∧
    issuesOfLine (parse content) (i + 1) = [Issue.unparsable (i + 1) (trim raw)] := by
  have he : isEntry raw = true := by simp [isEntry, ht, hhash]
  have ha : accepts (trim raw) = false := by simp [ht, accepts, hstart]
  rw [varsOfLine_parse content i raw hline, issuesOfLine_parse content i raw hline,
    lineOut_eq]
  simp [he, ha]

/-- C14 at the line `not a valid line !!`, with the text of its issue. -/
theorem unparsable_line_one_issue_witness :
    (varsOfLine (parse "FOO=bar\n  not a valid line !!".toList) 2 = [] ∧
      issuesOfLine (parse "FOO=bar\n  not a valid line !!".toList) 2 =
        [Issue.unparsable 2 "not a valid line !!".toList]) ∧
    (Issue.unparsable 2 "not a valid line !!".toList).message =
      "❌ Line 2: Can\x27t parse \"not a valid line !!\". Is this even English?".toList :=
  ⟨unparsable_line_one_issue "FOO=bar\n  not a valid line !!".toList 1
    "  not a valid line !!".toList 'n' "ot a valid line !!".toList
    (by decide) (by decide) (by decide) (by decide), by decide⟩

/-- C16. The empty-value and the embedded-space warning are never both made
for one line, a line has at most two issues, and the issues are at most twice
as many as the lines that are neither blank nor comments. -/
theorem issues_at_most_twice_entries (content : Str) :
    (∀ n key key2, ¬ (Issue.emptyValue n key ∈ (parse content).issues ∧
      Issue.hasSpaces n key2 ∈ (parse content).issues)) ∧
    (∀ n, (issuesOfLine (parse content) n).length ≤ 2) ∧
    (parse content).issues.length ≤
      2 * ((splitLines content).filter
        (fun raw => decide (trim raw ≠ [] ∧ (trim raw).head? ≠ some '#'))).length := by
  refine ⟨?_, ?_, ?_⟩
  · rintro n key key2 ⟨h1, h2⟩
    rw [parse_issues] at h1 h2
    obtain ⟨j, raw, hj, hm⟩ := mem_loopIssues h1
    obtain ⟨j2, raw2, hj2, hm2⟩ := mem_loopIssues h2
    have e1 := lineOut_issues_line _ _ _ hm
    have e2 := lineOut_issues_line _ _ _ hm2
    simp only [Issue.line] at e1 e2
    have hjj : j2 = j := by omega
    subst hjj
    rw [hj] at hj2
    simp only [Option.some.injEq] at hj2
    subst hj2
    exact lineOut_issues_not_both _ _ _ _ _ _ ⟨hm, hm2⟩
  · intro n
    unfold issuesOfLine
    rw [parse_issues]
    exact loopIssues_filter_length_le _ _ _
  · rw [parse_issues]
    exact loopIssues_length_le (splitLines content) 0

/-- C15. A line whose trimmed form starts with a character of `[A-Z_]` and
holds no CR, U+2028 or U+2029 always yields a variable: its key is the longest
prefix of the trimmed line made of characters of `[A-Z0-9_]`, and its value is
the remainder, less one leading `=` if there is one.  The line has no
unparsable-line issue. -/
theorem accepted_line_key_value (content : Str) (i : Nat) (raw : Str) (c : Char) (cs : Str)
    (hline : (splitLines content)[i]? = some raw)
    (ht : trim raw = c :: cs) (hstart : isKeyStart c = true)
    (hlt : ∀ d ∈ trim raw, d.toNat ≠ 0x0D ∧ d.toNat ≠ 0x2028 ∧ d.toNat ≠ 0x2029) :
    ∃ key rest, trim raw = key ++ rest ∧ key.all isKeyChar = true ∧
      (∀ d, rest.head? = some d → isKeyChar d = false) ∧
      varsOfLine (parse content) (i + 1) =
        [⟨key, if rest.head? = some '=' then rest.tail else rest, i + 1⟩] ∧
      (issuesOfLine (parse content) (i + 1)).filter Issue.isUnparsable = [] := by
  have hraw : raw ∈ splitLines content := List.getElem?_mem hline
  have hnl : ∀ d ∈ trim raw, d ≠ '\n' := by
    intro d hd e
    rw [e] at hd
    exact splitLines_no_newline content raw hraw (mem_of_mem_trim hd)
  have hdot : (trim raw).all isDot = true := by
    simp only [List.all_eq_true]
    intro d hd
    exact isDot_of_toNat (hnl d hd) (hlt d hd).1 (hlt d hd).2.1 (hlt d hd).2.2
  have hacc : accepts (trim raw) = true := by
    rw [ht] at hdot ⊢
    simp only [List.all_cons, Bool.and_eq_true] at hdot
    simp [accepts, hstart, hdot.2]
  have hhash : c ≠ '#' := by
    rintro rfl
    revert hstart
    decide
  have he : isEntry raw = true := by simp [isEntry, ht, hhash]
  refine ⟨keyOf (trim raw), (trim raw).dropWhile isKeyChar, ?_, ?_, ?_, ?_, ?_⟩
  · exact (List.takeWhile_append_dropWhile isKeyChar (trim raw)).symm
  · exact List.all_takeWhile
  · intro d hd
    have := List.head?_dropWhile_not isKeyChar (trim raw)
    rw [hd] at this
    exact this
  · rw [varsOfLine_parse content i raw hline, lineOut_eq, ← stripEq_eq]
    simp [he, hacc, valueOf]
  · rw [issuesOfLine_parse content i raw hline, lineOut_eq]
    simp [he, hacc, warnings_not_unparsable]

/-- C15 at the line `FOO bar`: the key is `FOO` and the value is ` bar`. -/
theorem accepted_line_key_value_witness :
    ∃ key rest, trim "FOO bar".toList = key ++ rest ∧ key.all isKeyChar = true ∧
      (∀ d, rest.head? = some d → isKeyChar d = false) ∧
      varsOfLine (parse "FOO bar".toList) (0 + 1) =
        [⟨key, if rest.head? = some '=' then rest.tail else rest, 0 + 1⟩] ∧
      (issuesOfLine (parse "FOO bar".toList) (0 + 1)).filter Issue.isUnparsable = [] :=
  accepted_line_key_value "FOO bar".toList 0 "FOO bar".toList 'F' "OO bar".toList
    (by decide) (by decide) (by decide) (by decide)

/-- The examples of C15, evaluated: `FOO bar`, `FOObar` and `FOO==x`. -/
theorem accepted_line_examples :
    (parse "FOO bar".toList).vars = [⟨"FOO".toList, " bar".toList, 1⟩] ∧
    (parse "FOObar".toList).vars = [⟨"FOO".toList, "bar".toList, 1⟩] ∧
    (parse "FOO==x".toList).vars = [⟨"FOO".toList, "=x".toList, 1⟩] ∧
    (parse "FOO bar".toList).issues = [Issue.hasSpaces 1 "FOO".toList] ∧
    (parse "FOObar".toList).issues = [] := by
  decide

/-- C17. Parsing `a`, a line feed and `b` gives the variables of `a` followed
by those of `b`, and the issues of `a` followed by those of `b`, with every line
number from `b` moved by the number of lines of `a`, which is the number of line
feeds in `a` plus one.  What a line contributes is a function of the line and
of its index alone. -/
theorem parse_append_line (a b : Str) :
    (parse (a ++ "\n".toList ++ b)).vars =
      (parse a).vars ++ (parse b).vars.map (Variable.shift (a.count '\n' + 1)) ∧
    (parse (a ++ "\n".toList ++ b)).issues =
      (parse a).issues ++ (parse b).issues.map (Issue.shift (a.count '\n' + 1)) ∧
    (splitLines a).length = a.count '\n' + 1 ∧
    (∀ i raw, (splitLines (a ++ "\n".toList ++ b))[i]? = some raw →
      varsOfLine (parse (a ++ "\n".toList ++ b)) (i + 1) = (lineOut i raw).vars ∧
      issuesOfLine (parse (a ++ "\n".toList ++ b)) (i + 1) = (lineOut i raw).issues) := by
  have hab : a ++ "\n".toList ++ b = a ++ '\n' :: b := by
    show a ++ ['\n'] ++ b = a ++ '\n' :: b
    simp
  have hlen := splitLines_length a
  have happ := loop_append (splitLines a) (splitLines b) 0
  have hsh := loop_shift (splitLines b) 0 (splitLines a).length
  rw [hab]
  refine ⟨?_, ?_, hlen, ?_⟩
  · rw [parse_vars, parse_vars, parse_vars, splitLines_append, happ.1, hsh.1, hlen]
  · rw [parse_issues, parse_issues, parse_issues, splitLines_append, happ.2, hsh.2, hlen]
  · intro i raw hline
    exact ⟨varsOfLine_parse _ i raw hline, issuesOfLine_parse _ i raw hline⟩

/-- C17 at a two-line content followed by a two-line content. -/
theorem parse_append_line_witness :
    (parse "A=\noops\nSECRET=x y\nB".toList).vars =
      [⟨"A".toList, [], 1⟩, ⟨"SECRET".toList, "x y".toList, 3⟩, ⟨"B".toList, [], 4⟩] ∧
    (parse "A=\noops\nSECRET=x y\nB".toList).issues =
      [Issue.emptyValue 1 "A".toList, Issue.unparsable 2 "oops".toList,
        Issue.hasSpaces 3 "SECRET".toList, Issue.weakSecret 3 "SECRET".toList,
        Issue.emptyValue 4 "B".toList] :=
  have h := parse_append_line "A=\noops".toList "SECRET=x y\nB".toList
  ⟨h.1.trans (by decide), h.2.1.trans (by decide)⟩

end EnvRoulette
